import Mathlib

/-!
# HyperStream: shallow embedding and verification

A shallow embedding of the HyperStream C++ library (binary hypervectors,
bundlers, encoders, associative memories, backend policy, HSER1
serialization), translated from the headers under
`include/hyperstream/`, together with theorems settling the frozen
claims about the specification.

Machine integers are modelled as `Nat` (with explicit `% 2^64` / `% 2^32`
where the C++ type wraps) and `Int` for signed counters.  A C++
`HyperVector<Dim, bool>` is a fixed array of `⌈Dim/64⌉` 64-bit words; we
model it as a function from word index to `Nat` carrying the invariant
that every word is `< 2^64`.
-/

namespace HyperStream

/-- Number of 64-bit storage words for `D` bits:
`kWordCount = (Dim + kWordBits - 1) / kWordBits` from `hypervector.hpp`. -/
def wc (D : Nat) : Nat := (D + 63) / 64

theorem le_64_mul_wc (D : Nat) : D ≤ 64 * wc D := by
  have h := Nat.div_add_mod (D + 63) 64
  have h2 : (D + 63) % 64 < 64 := Nat.mod_lt _ (by norm_num)
  unfold wc
  omega

theorem wc_pos {D : Nat} (hD : 0 < D) : 0 < wc D := by
  have := le_64_mul_wc D
  omega

/-- Bit-packed binary hypervector of dimension `D`
(`HyperVector<Dim, bool>` from `core/hypervector.hpp`): an array of
`wc D` 64-bit words, each stored as a `Nat` below `2^64`. -/
structure HV (D : Nat) : Type where
  words : Fin (wc D) → Nat
  words_lt : ∀ i, words i < 2 ^ 64

theorem HV.ext_words {D : Nat} {x y : HV D} (h : x.words = y.words) : x = y := by
  cases x
  cases y
  simp only at h
  subst h
  rfl

instance {D : Nat} : DecidableEq (HV D) := fun x y =>
  if h : x.words = y.words then .isTrue (HV.ext_words h)
  else .isFalse (fun he => h (congrArg HV.words he))

/-- The all-zero hypervector (a fresh `HyperVector` is zero-filled, and
`Clear()` zeroes every word). -/
def zeroHV (D : Nat) : HV D :=
  ⟨fun _ => 0, fun _ => by positivity⟩

/-- `GetBit(bit_index)`: bit `i` lives in word `i / 64` at offset
`i mod 64`.  The C++ code bounds-checks `bit_index < Dim` (throwing /
terminating otherwise); out-of-range reads are modelled as `false`. -/
def HV.getBit {D : Nat} (x : HV D) (t : Nat) : Bool :=
  if h : t < D then
    (x.words ⟨t / 64, by
      have := le_64_mul_wc D
      omega⟩).testBit (t % 64)
  else false

theorem div64_lt_wc {D t : Nat} (h : t < D) : t / 64 < wc D := by
  have := le_64_mul_wc D
  omega

/-- `SetBit(bit_index, value)`: ORs in / ANDs out the mask `1 << (i mod 64)`
of word `i / 64`.  Out-of-range writes (which the C++ code rejects with an
exception) are modelled as the identity. -/
def HV.setBit {D : Nat} (x : HV D) (t : Nat) (v : Bool) : HV D :=
  if h : t < D then
    { words := fun j =>
        if j.val = t / 64 then
          if v then x.words j ||| (1 <<< (t % 64))
          else x.words j &&& ((2 ^ 64 - 1) ^^^ (1 <<< (t % 64)))
        else x.words j
      words_lt := fun j => by
        dsimp only
        by_cases hj : j.val = t / 64
        · rw [if_pos hj]
          cases v with
          | true =>
            rw [if_pos rfl]
            have h1 := x.words_lt j
            have hlt : 1 <<< (t % 64) < 2 ^ 64 := by
              rw [Nat.one_shiftLeft]
              exact Nat.pow_lt_pow_right (by norm_num) (Nat.mod_lt _ (by norm_num))
            exact Nat.or_lt_two_pow h1 hlt
          | false =>
            rw [if_neg (by simp)]
            exact lt_of_le_of_lt (Nat.and_le_left) (x.words_lt j)
        · rw [if_neg hj]
          exact x.words_lt j }
  else x

/-- Raw storage bit `t` of a word array: word `t / 64`, offset `t mod 64`;
positions at or beyond the word span read as `false`. -/
def gBit (N : Nat) (w : Fin N → Nat) (t : Nat) : Bool :=
  if h : t / 64 < N then (w ⟨t / 64, h⟩).testBit (t % 64) else false

/-- Tail invariant from `hypervector.hpp`: storage bits at indices `≥ D` are 0. -/
def HV.tailZero {D : Nat} (x : HV D) : Prop :=
  ∀ t, D ≤ t → gBit (wc D) x.words t = false

theorem gBit_ge (N : Nat) (w : Fin N → Nat) (t : Nat)
    (ht : 64 * N ≤ t) : gBit N w t = false := by
  unfold gBit
  by_cases h : t / 64 < N
  · rw [dif_pos h]
    omega
  · rw [dif_neg h]

instance {D : Nat} (x : HV D) : Decidable x.tailZero := by
  refine decidable_of_iff
    (∀ t, t < 64 * wc D → D ≤ t → gBit (wc D) x.words t = false) ⟨fun h t ht => ?_, fun h t _ ht => h t ht⟩
  by_cases hlt : t < 64 * wc D
  · exact h t hlt ht
  · exact gBit_ge _ _ t (by omega)

theorem gBit_decomp (N : Nat) (w : Fin N → Nat) (m p : Nat) (hm : m < N) (hp : p < 64) :
    gBit N w (64 * m + p) = (w ⟨m, hm⟩).testBit p := by
  have h1 : (64 * m + p) / 64 = m := by omega
  have h2 : (64 * m + p) % 64 = p := by omega
  unfold gBit
  simp only [h1, h2]
  rw [dif_pos hm]

theorem block_mod (N m p : Nat) (hN : 0 < N) (hp : p < 64) :
    (64 * m + p) % (64 * N) = 64 * (m % N) + p := by
  have h := Nat.div_add_mod m N
  set a := m / N with ha
  set b := m % N with hb
  have hblt : b < N := Nat.mod_lt _ hN
  rw [← h]
  have hr : 64 * (N * a + b) + p = (64 * b + p) + (64 * N) * a := by ring
  rw [hr, Nat.add_mul_mod_self_left, Nat.mod_eq_of_lt (by omega)]

/-- Word-level rotation core of `PermuteRotate` (`core/ops.hpp`): whole-word
rotation by `q` words plus intra-word rotation by `r` bits with carry from the
neighbouring word; `q = (rotate_by / 64) % word_count`, `r = rotate_by % 64`. -/
def rotWords (N q r : Nat) (w : Fin N → Nat) : Fin N → Nat := fun i =>
  if r = 0 then w ⟨(i.val + N - q) % N, Nat.mod_lt _ i.pos⟩
  else ((w ⟨(i.val + N - q) % N, Nat.mod_lt _ i.pos⟩ <<< r) |||
        (w ⟨(i.val + N - q - 1) % N, Nat.mod_lt _ i.pos⟩ >>> (64 - r))) % 2 ^ 64

theorem rotWords_lt (N q r : Nat) (w : Fin N → Nat) (hw : ∀ i, w i < 2 ^ 64) (i : Fin N) :
    rotWords N q r w i < 2 ^ 64 := by
  unfold rotWords
  by_cases hr : r = 0
  · rw [if_pos hr]
    exact hw _
  · rw [if_neg hr]
    exact Nat.mod_lt _ (by positivity)

/-- `PermuteRotate(input, rotate_by, output)` from `core/ops.hpp`: word-wise
rotate with bit carry, followed by masking the excess bits of the final word
when `word_count * 64 > Dim`. -/
def permuteRotate {D : Nat} (x : HV D) (k : Nat) : HV D :=
  let N := wc D
  let q := (k / 64) % N
  let r := k % 64
  let w' := rotWords N q r x.words
  { words := fun i =>
      if 0 < 64 * N - D ∧ i.val = N - 1 then
        w' i &&& ((2 ^ 64 - 1) >>> (64 * N - D))
      else w' i
    words_lt := fun i => by
      dsimp only
      by_cases h : 0 < 64 * N - D ∧ i.val = N - 1
      · rw [if_pos h]
        exact lt_of_le_of_lt Nat.and_le_left (rotWords_lt N q r x.words x.words_lt i)
      · rw [if_neg h]
        exact rotWords_lt N q r x.words x.words_lt i }

theorem gBit_rotWords (N q r : Nat) (hq : q < N) (hr : r < 64) (w : Fin N → Nat)
    (hw : ∀ i, w i < 2 ^ 64) (t : Nat) (ht : t < 64 * N) :
    gBit N (rotWords N q r w) t = gBit N w ((t + 64 * N - (64 * q + r)) % (64 * N)) := by
  have hN : 0 < N := by omega
  have hi : t / 64 < N := by omega
  have hp : t % 64 < 64 := Nat.mod_lt _ (by norm_num)
  have hL : gBit N (rotWords N q r w) t = (rotWords N q r w ⟨t / 64, hi⟩).testBit (t % 64) := by
    unfold gBit
    rw [dif_pos hi]
  rw [hL]
  unfold rotWords
  dsimp only
  by_cases hr0 : r = 0
  · subst hr0
    rw [if_pos rfl]
    have harg : (t + 64 * N - (64 * q + 0)) % (64 * N) = 64 * ((t / 64 + N - q) % N) + t % 64 := by
      have h1 : t + 64 * N - (64 * q + 0) = 64 * (t / 64 + N - q) + t % 64 := by omega
      rw [h1, block_mod N _ _ hN hp]
    rw [harg, gBit_decomp N w _ _ (Nat.mod_lt _ hN) hp]
  · rw [if_neg hr0]
    rw [Nat.testBit_mod_two_pow, Nat.testBit_lor, Nat.testBit_shiftLeft, Nat.testBit_shiftRight]
    have hplt : decide (t % 64 < 64) = true := by simpa using hp
    by_cases hpr : r ≤ t % 64
    · have hb : (w ⟨(t / 64 + N - q - 1) % N, Nat.mod_lt _ hN⟩).testBit (64 - r + t % 64) = false :=
        Nat.testBit_lt_two_pow
          (lt_of_lt_of_le (hw _) (Nat.pow_le_pow_right (by norm_num) (by omega)))
      have hge : decide (t % 64 ≥ r) = true := by simpa using hpr
      rw [hb, hplt, hge]
      simp only [Bool.true_and, Bool.and_true, Bool.or_false]
      have harg : (t + 64 * N - (64 * q + r)) % (64 * N)
          = 64 * ((t / 64 + N - q) % N) + (t % 64 - r) := by
        have h1 : t + 64 * N - (64 * q + r) = 64 * (t / 64 + N - q) + (t % 64 - r) := by omega
        rw [h1, block_mod N _ _ hN (by omega)]
      rw [harg, gBit_decomp N w _ _ (Nat.mod_lt _ hN) (by omega)]
    · have hge : decide (t % 64 ≥ r) = false := by simpa using hpr
      rw [hge, hplt]
      simp only [Bool.true_and, Bool.false_and, Bool.false_or]
      have harg : (t + 64 * N - (64 * q + r)) % (64 * N)
          = 64 * ((t / 64 + N - q - 1) % N) + (64 - r + t % 64) := by
        have h1 : t + 64 * N - (64 * q + r) = 64 * (t / 64 + N - q - 1) + (64 - r + t % 64) := by
          omega
        rw [h1, block_mod N _ _ hN (by omega)]
      rw [harg, gBit_decomp N w _ _ (Nat.mod_lt _ hN) (by omega)]

theorem HV.getBit_eq_gBit {D : Nat} (x : HV D) (t : Nat) (ht : t < D) :
    x.getBit t = gBit (wc D) x.words t := by
  unfold HV.getBit gBit
  rw [dif_pos ht, dif_pos (div64_lt_wc ht)]

theorem mul_wc_of_dvd {D : Nat} (h : 64 ∣ D) : 64 * wc D = D := by
  obtain ⟨m, rfl⟩ := h
  unfold wc
  omega

/-- When `64 ∣ D` there are no excess bits, so the final-word mask of
`PermuteRotate` is a no-op and the output words are exactly `rotWords`. -/
theorem permuteRotate_words_dvd {D : Nat} (h64 : 64 ∣ D) (x : HV D) (k : Nat) :
    (permuteRotate x k).words = rotWords (wc D) ((k / 64) % wc D) (k % 64) x.words := by
  have hm := mul_wc_of_dvd h64
  funext i
  show (if 0 < 64 * wc D - D ∧ i.val = wc D - 1 then _ else _) = _
  rw [if_neg (by omega)]

theorem kprime_eq_mod {D : Nat} (hD : 0 < D) (h64 : 64 ∣ D) (k : Nat) :
    64 * ((k / 64) % wc D) + k % 64 = k % D := by
  obtain ⟨N, rfl⟩ := h64
  have hwc : wc (64 * N) = N := by unfold wc; omega
  have hN : 0 < N := by omega
  rw [hwc]
  obtain ⟨A, B, c, hBlt, hclt, hk⟩ :
      ∃ A B c, B < N ∧ c < 64 ∧ k = (64 * B + c) + (64 * N) * A := by
    refine ⟨k / 64 / N, k / 64 % N, k % 64, Nat.mod_lt _ hN,
      Nat.mod_lt _ (by norm_num), ?_⟩
    have h2 := Nat.div_add_mod (k / 64) N
    calc k = 64 * (k / 64) + k % 64 := by omega
      _ = 64 * (N * (k / 64 / N) + k / 64 % N) + k % 64 := by rw [h2]
      _ = (64 * (k / 64 % N) + k % 64) + (64 * N) * (k / 64 / N) := by ring
  subst hk
  have hP : (64 * N) * A = 64 * (N * A) := by ring
  rw [hP]
  have hmod64 : (64 * B + c + 64 * (N * A)) % 64 = c := by omega
  have hdiv64 : (64 * B + c + 64 * (N * A)) / 64 = B + N * A := by omega
  rw [hmod64, hdiv64, Nat.add_mul_mod_self_left, Nat.mod_eq_of_lt hBlt]
  have hback : 64 * B + c + 64 * (N * A) = (64 * B + c) + (64 * N) * A := by ring
  rw [hback, Nat.add_mul_mod_self_left, Nat.mod_eq_of_lt (by omega)]

/-- Bit-level semantics of `PermuteRotate` for `64 ∣ D`: logical bit `t` of the
output is logical bit `(t + D - k mod D) mod D` of the input, i.e. the function
is an exact left-rotate by `k` over the `D` logical bits. -/
theorem getBit_permuteRotate_dvd {D : Nat} (hD : 0 < D) (h64 : 64 ∣ D) (x : HV D)
    (k t : Nat) (ht : t < D) :
    (permuteRotate x k).getBit t = x.getBit ((t + (D - k % D)) % D) := by
  have hm := mul_wc_of_dvd h64
  have hN : 0 < wc D := by omega
  have hkD : k % D < D := Nat.mod_lt _ hD
  rw [HV.getBit_eq_gBit _ t ht,
    HV.getBit_eq_gBit _ _ (Nat.mod_lt _ hD)]
  have hw := (permuteRotate x k).words_lt
  rw [permuteRotate_words_dvd h64 x k]
  rw [gBit_rotWords (wc D) _ _ (Nat.mod_lt _ hN) (Nat.mod_lt _ (by norm_num))
    x.words x.words_lt t (by omega)]
  rw [hm, kprime_eq_mod hD h64 k]
  have harg : t + D - k % D = t + (D - k % D) := by omega
  rw [harg]

/-- Two hypervectors with `64 ∣ D` and equal logical bits are equal. -/
theorem HV.ext_of_getBit_dvd {D : Nat} (h64 : 64 ∣ D) {x y : HV D}
    (h : ∀ t, t < D → x.getBit t = y.getBit t) : x = y := by
  have hm := mul_wc_of_dvd h64
  apply HV.ext_words
  funext i
  apply Nat.eq_of_testBit_eq
  intro p
  by_cases hp : p < 64
  · have htD : 64 * i.val + p < D := by
      have := i.isLt
      omega
    have hx := h (64 * i.val + p) htD
    rw [HV.getBit_eq_gBit _ _ htD, HV.getBit_eq_gBit _ _ htD] at hx
    rw [gBit_decomp _ _ _ _ i.isLt hp, gBit_decomp _ _ _ _ i.isLt hp] at hx
    exact hx
  · rw [Nat.testBit_lt_two_pow
        (lt_of_lt_of_le (x.words_lt i) (Nat.pow_le_pow_right (by norm_num) (by omega))),
      Nat.testBit_lt_two_pow
        (lt_of_lt_of_le (y.words_lt i) (Nat.pow_le_pow_right (by norm_num) (by omega)))]

theorem permuteRotate_zero_dvd {D : Nat} (hD : 0 < D) (h64 : 64 ∣ D) (x : HV D) :
    permuteRotate x 0 = x := by
  apply HV.ext_of_getBit_dvd h64
  intro t ht
  rw [getBit_permuteRotate_dvd hD h64 x 0 t ht]
  have harg : (t + (D - 0 % D)) % D = t := by
    rw [Nat.zero_mod, Nat.sub_zero, Nat.add_mod_right, Nat.mod_eq_of_lt ht]
  rw [harg]

theorem permuteRotate_dim_dvd {D : Nat} (hD : 0 < D) (h64 : 64 ∣ D) (x : HV D) :
    permuteRotate x D = x := by
  apply HV.ext_of_getBit_dvd h64
  intro t ht
  rw [getBit_permuteRotate_dvd hD h64 x D t ht]
  have harg : (t + (D - D % D)) % D = t := by
    rw [Nat.mod_self, Nat.sub_zero, Nat.add_mod_right, Nat.mod_eq_of_lt ht]
  rw [harg]

theorem permuteRotate_comp_dvd {D : Nat} (hD : 0 < D) (h64 : 64 ∣ D) (x : HV D) (a b : Nat) :
    permuteRotate (permuteRotate x a) b = permuteRotate x ((a + b) % D) := by
  apply HV.ext_of_getBit_dvd h64
  intro t ht
  have hmod : ∀ m : Nat, m % D < D := fun m => Nat.mod_lt _ hD
  rw [getBit_permuteRotate_dvd hD h64 _ b t ht,
    getBit_permuteRotate_dvd hD h64 x a _ (hmod _),
    getBit_permuteRotate_dvd hD h64 x _ t ht]
  congr 1
  have hmm : ((a + b) % D) % D = (a + b) % D := Nat.mod_eq_of_lt (hmod _)
  rw [hmm, Nat.mod_add_mod]
  set α := a % D with hα
  set β := b % D with hβ
  clear_value α β
  have hαlt : α < D := hα ▸ hmod a
  have hβlt : β < D := hβ ▸ hmod b
  have hab : (a + b) % D = (α + β) % D := by
    rw [hα, hβ, ← Nat.add_mod]
  rw [hab]
  by_cases hc : α + β < D
  · rw [Nat.mod_eq_of_lt hc]
    have he : t + (D - β) + (D - α) = (t + (D - (α + β))) + D := by omega
    rw [he, Nat.add_mod_right]
  · have hγ : (α + β) % D = α + β - D := by
      conv_lhs => rw [show α + β = (α + β - D) + D by omega]
      rw [Nat.add_mod_right]
      exact Nat.mod_eq_of_lt (by omega)
    rw [hγ]
    have he : t + (D - β) + (D - α) = t + (D - (α + β - D)) := by omega
    rw [he]

theorem HV.getBit_setBit_same {D : Nat} (x : HV D) (t : Nat) (v : Bool) (ht : t < D) :
    (x.setBit t v).getBit t = v := by
  unfold HV.setBit HV.getBit
  rw [dif_pos ht, dif_pos ht]
  dsimp only
  rw [if_pos rfl]
  cases v with
  | true =>
    rw [if_pos rfl, Nat.testBit_lor, Nat.one_shiftLeft, Nat.testBit_two_pow_self, Bool.or_true]
  | false =>
    rw [if_neg (by simp), Nat.testBit_and, Nat.testBit_xor, Nat.one_shiftLeft,
      Nat.testBit_two_pow_sub_one, Nat.testBit_two_pow_self]
    simp [Nat.mod_lt t (show 0 < 64 by norm_num)]

theorem HV.getBit_setBit_ne {D : Nat} (x : HV D) (t u : Nat) (v : Bool) (hne : u ≠ t) :
    (x.setBit t v).getBit u = x.getBit u := by
  unfold HV.setBit
  by_cases ht : t < D
  · rw [dif_pos ht]
    unfold HV.getBit
    by_cases hu : u < D
    · rw [dif_pos hu, dif_pos hu]
      dsimp only
      by_cases hw : u / 64 = t / 64
      · rw [if_pos hw]
        have hp : u % 64 ≠ t % 64 := by omega
        cases v with
        | true =>
          rw [if_pos rfl, Nat.testBit_lor, Nat.one_shiftLeft,
            Nat.testBit_two_pow_of_ne (fun h => hp h.symm), Bool.or_false]
        | false =>
          rw [if_neg (by simp), Nat.testBit_and, Nat.testBit_xor, Nat.one_shiftLeft,
            Nat.testBit_two_pow_sub_one, Nat.testBit_two_pow_of_ne (fun h => hp h.symm)]
          simp [Nat.mod_lt u (show 0 < 64 by norm_num)]
      · rw [if_neg hw]
    · rw [dif_neg hu, dif_neg hu]
  · rw [dif_neg ht]

/-- Iterated `SetBit` over a list of bit positions, value taken from `f`. -/
def setBits {D : Nat} (x : HV D) (l : List Nat) (f : Nat → Bool) : HV D :=
  l.foldl (fun acc j => acc.setBit j (f j)) x

theorem getBit_setBits {D : Nat} (x : HV D) (l : List Nat) (f : Nat → Bool) (t : Nat)
    (ht : t < D) :
    (setBits x l f).getBit t = if t ∈ l then f t else x.getBit t := by
  induction l generalizing x with
  | nil => simp [setBits]
  | cons j tl ih =>
    show (setBits (x.setBit j (f j)) tl f).getBit t = _
    rw [ih]
    by_cases htl : t ∈ tl
    · rw [if_pos htl, if_pos (List.mem_cons_of_mem _ htl)]
    · rw [if_neg htl]
      by_cases hj : t = j
      · subst hj
        rw [if_pos (List.mem_cons_self _ _), HV.getBit_setBit_same x t (f t) ht]
      · rw [if_neg (by simp [hj, htl]), HV.getBit_setBit_ne x j t (f j) hj]

/-- `Bind` on binary hypervectors (`core/ops.hpp`): word-wise XOR. -/
def bind {D : Nat} (a b : HV D) : HV D :=
  ⟨fun i => a.words i ^^^ b.words i,
   fun i => Nat.xor_lt_two_pow (a.words_lt i) (b.words_lt i)⟩

/-!
## BinaryBundler (`core/ops.hpp`)

Default build: 16-bit signed saturating counters (`counter_t = int16_t`),
one counter per bit position.  Counters are modelled as `Fin D → Int`.
-/

/-- Counter value at a raw index (counters live at indices `< D`). -/
def cget {D : Nat} (c : Fin D → Int) (t : Nat) : Int :=
  if h : t < D then c ⟨t, h⟩ else 0

/-- `BinaryBundler::Reset()`: all counters zero. -/
def bundlerReset (D : Nat) : Fin D → Int := fun _ => 0

/-- `BinaryBundler::Accumulate(hv)` in the default (non-wide) build:
saturating increment on a 1-bit, saturating decrement on a 0-bit. -/
def bundlerAccumulate {D : Nat} (c : Fin D → Int) (hv : HV D) : Fin D → Int :=
  fun i =>
    if hv.getBit i.val then
      if c i ≠ 32767 then c i + 1 else c i
    else
      if c i ≠ -32768 then c i - 1 else c i

/-- `BinaryBundler::Finalize(out)`: `out.SetBit(i, counters_[i] >= 0)` for every
`i < D` (bits beyond `D` of `out` are not touched). -/
def bundlerFinalize {D : Nat} (c : Fin D → Int) (out : HV D) : HV D :=
  setBits out (List.range D) (fun t => decide (0 ≤ cget c t))

/-- Counters after a `Reset` followed by a sequence of `Accumulate` calls. -/
def bundlerRun {D : Nat} (hvs : List (HV D)) : Fin D → Int :=
  hvs.foldl bundlerAccumulate (bundlerReset D)

theorem bundlerAccumulate_bounds {D : Nat} (c : Fin D → Int) (hv : HV D) (i : Fin D)
    (h : -32768 ≤ c i ∧ c i ≤ 32767) :
    -32768 ≤ bundlerAccumulate c hv i ∧ bundlerAccumulate c hv i ≤ 32767 := by
  unfold bundlerAccumulate
  by_cases hb : hv.getBit i.val <;> by_cases hc : c i = 32767 <;>
    by_cases hc2 : c i = -32768 <;> simp_all <;> omega

theorem bundlerRun_bounds {D : Nat} (hvs : List (HV D)) (i : Fin D) :
    -32768 ≤ bundlerRun hvs i ∧ bundlerRun hvs i ≤ 32767 := by
  suffices h : ∀ (c : Fin D → Int), (∀ j, -32768 ≤ c j ∧ c j ≤ 32767) →
      -32768 ≤ hvs.foldl bundlerAccumulate c i ∧ hvs.foldl bundlerAccumulate c i ≤ 32767 by
    exact h (bundlerReset D) (fun _ => by unfold bundlerReset; omega)
  induction hvs with
  | nil => intro c hc; exact hc i
  | cons hv tl ih =>
    intro c hc
    exact ih _ (fun j => bundlerAccumulate_bounds c hv j (hc j))

theorem getBit_bundlerFinalize {D : Nat} (c : Fin D → Int) (out : HV D) (i : Fin D) :
    (bundlerFinalize c out).getBit i.val = decide (0 ≤ c i) := by
  unfold bundlerFinalize
  rw [getBit_setBits out _ _ i.val i.isLt, if_pos (List.mem_range.mpr i.isLt)]
  unfold cget
  rw [dif_pos i.isLt]

/-!
## Deterministic PRNG and hashing primitives (`encoding/encoders.hpp`)
-/

/-- `SplitMix64Step`: advances the state by the golden gamma and returns the
mixed output together with the new state.  All arithmetic is `u64`. -/
def splitMix64Step (state : Nat) : Nat × Nat :=
  let s := (state + 0x9e3779b97f4a7c15) % 2 ^ 64
  let z1 := ((s ^^^ (s >>> 30)) * 0xbf58476d1ce4e5b9) % 2 ^ 64
  let z2 := ((z1 ^^^ (z1 >>> 27)) * 0x94d049bb133111eb) % 2 ^ 64
  (z2 ^^^ (z2 >>> 31), s)

theorem shiftRight_le_self (x n : Nat) : x >>> n ≤ x := by
  rw [Nat.shiftRight_eq_div_pow]
  exact Nat.div_le_self _ _

theorem splitMix64Step_lt (state : Nat) : (splitMix64Step state).1 < 2 ^ 64 := by
  unfold splitMix64Step
  dsimp only
  exact Nat.xor_lt_two_pow (Nat.mod_lt _ (by norm_num))
    (lt_of_le_of_lt (shiftRight_le_self _ _) (Nat.mod_lt _ (by norm_num)))

/-- `MixSymbol(seed, symbol)`: seeds the per-symbol PRNG state.  Inputs are
`u64` values, so they are reduced modulo `2^64` on entry. -/
def mixSymbol (seed0 sym0 : Nat) : Nat :=
  let seed := seed0 % 2 ^ 64
  let sym := sym0 % 2 ^ 64
  let st := (seed + sym * 0x94d049bb133111eb) % 2 ^ 64
  let st2 := st ^^^ (((sym <<< 32) % 2 ^ 64) ||| (sym >>> 32))
  (st2 * 0xbf58476d1ce4e5b9) % 2 ^ 64

/-- The word stream of `GenerateRandomHypervector`: `n` successive
`SplitMix64Step` outputs from an initial state. -/
def genWords (state : Nat) : Nat → List Nat
  | 0 => []
  | n + 1 =>
    let p := splitMix64Step state
    p.1 :: genWords p.2 n

theorem genWords_length (state n : Nat) : (genWords state n).length = n := by
  induction n generalizing state with
  | zero => rfl
  | succ m ih => simp [genWords, ih]

theorem genWords_lt (state n : Nat) : ∀ v ∈ genWords state n, v < 2 ^ 64 := by
  induction n generalizing state with
  | zero => intro v hv; simp [genWords] at hv
  | succ m ih =>
    intro v hv
    simp only [genWords, List.mem_cons] at hv
    rcases hv with h | h
    · exact h ▸ splitMix64Step_lt state
    · exact ih _ v h

/-- Final-word tail mask from `GenerateRandomHypervector` / `PermuteRotate`:
keep the low `64 - excess` bits of the last word when `excess > 0`. -/
def applyTailMask (D : Nat) (w : Fin (wc D) → Nat) : Fin (wc D) → Nat := fun i =>
  if 0 < 64 * wc D - D ∧ i.val = wc D - 1 then
    w i &&& ((2 ^ 64 - 1) >>> (64 * wc D - D))
  else w i

theorem applyTailMask_lt {D : Nat} (w : Fin (wc D) → Nat) (hw : ∀ i, w i < 2 ^ 64)
    (i : Fin (wc D)) : applyTailMask D w i < 2 ^ 64 := by
  unfold applyTailMask
  by_cases h : 0 < 64 * wc D - D ∧ i.val = wc D - 1
  · rw [if_pos h]
    exact lt_of_le_of_lt Nat.and_le_left (hw i)
  · rw [if_neg h]
    exact hw i

/-- Word `i` of the SplitMix64 word stream for `wc D` words. -/
def genWordsFn (D : Nat) (state : Nat) : Fin (wc D) → Nat := fun i =>
  (genWords state (wc D)).getD i.val 0

theorem genWordsFn_lt (D state : Nat) (i : Fin (wc D)) : genWordsFn D state i < 2 ^ 64 := by
  unfold genWordsFn
  have h : i.val < (genWords state (wc D)).length := by
    rw [genWords_length]
    exact i.isLt
  rw [List.getD_eq_getElem _ 0 h]
  exact genWords_lt _ _ _ (List.getElem_mem h)

/-- `GenerateRandomHypervector(seed, symbol)`: fill every word from the
SplitMix64 stream, then mask the tail. -/
def generateRandomHypervector (D : Nat) (seed sym : Nat) : HV D :=
  ⟨applyTailMask D (genWordsFn D (mixSymbol seed sym)),
   applyTailMask_lt _ (genWordsFn_lt D _)⟩


theorem testBit_keepMask (e p : Nat) :
    ((2 ^ 64 - 1) >>> e).testBit p = decide (e + p < 64) := by
  rw [Nat.testBit_shiftRight, Nat.testBit_two_pow_sub_one]

theorem tailZero_applyTailMask {D : Nat} (w : Fin (wc D) → Nat) :
    ∀ t, D ≤ t → gBit (wc D) (applyTailMask D w) t = false := by
  intro t ht
  by_cases hlt : t / 64 < wc D
  · unfold gBit
    rw [dif_pos hlt]
    have hub : 64 * wc D ≤ D + 63 := by unfold wc; omega
    have hlb := le_64_mul_wc D
    have hidx : t / 64 = wc D - 1 := by omega
    have hextra : 0 < 64 * wc D - D := by omega
    unfold applyTailMask
    rw [if_pos ⟨hextra, hidx⟩, Nat.testBit_and, testBit_keepMask]
    have hout : ¬(64 * wc D - D + t % 64 < 64) := by omega
    simp [hout]
  · unfold gBit
    rw [dif_neg hlt]

theorem and_keepMask_eq_self {w e : Nat} (hw : w < 2 ^ 64)
    (h : ∀ p, 64 - e ≤ p → w.testBit p = false) :
    w &&& ((2 ^ 64 - 1) >>> e) = w := by
  apply Nat.eq_of_testBit_eq
  intro p
  rw [Nat.testBit_and, testBit_keepMask]
  by_cases hp : e + p < 64
  · simp [hp]
  · have hz : w.testBit p = false := by
      by_cases h64 : p < 64
      · exact h p (by omega)
      · exact Nat.testBit_lt_two_pow
          (lt_of_lt_of_le hw (Nat.pow_le_pow_right (by norm_num) (by omega)))
    simp [hz, hp]

theorem permuteRotate_words_eq {D : Nat} (x : HV D) (k : Nat) :
    (permuteRotate x k).words
      = applyTailMask D (rotWords (wc D) ((k / 64) % wc D) (k % 64) x.words) := rfl

theorem tailZero_permuteRotate {D : Nat} (x : HV D) (k : Nat) :
    (permuteRotate x k).tailZero := by
  intro t ht
  rw [show (permuteRotate x k).words
      = applyTailMask D (rotWords (wc D) ((k / 64) % wc D) (k % 64) x.words) from rfl]
  exact tailZero_applyTailMask _ t ht

theorem tailZero_generateRandomHypervector (D seed sym : Nat) :
    (generateRandomHypervector D seed sym).tailZero := by
  intro t ht
  exact tailZero_applyTailMask _ t ht

/-- `PermuteRotate(x, 0)` is the identity on every tail-clean hypervector, for
every dimension (the word loop copies each word and the final mask keeps every
live bit). -/
theorem permuteRotate_zero_tailZero {D : Nat} (x : HV D) (hx : x.tailZero) :
    permuteRotate x 0 = x := by
  apply HV.ext_words
  rw [permuteRotate_words_eq]
  have hrw : rotWords (wc D) ((0 / 64) % wc D) (0 % 64) x.words = x.words := by
    funext j
    unfold rotWords
    rw [if_pos (by norm_num)]
    congr 1
    apply Fin.ext
    show (j.val + wc D - (0 / 64) % wc D) % wc D = j.val
    rw [Nat.zero_div, Nat.zero_mod, Nat.sub_zero, Nat.add_mod_right, Nat.mod_eq_of_lt j.isLt]
  rw [hrw]
  funext i
  unfold applyTailMask
  by_cases hcond : 0 < 64 * wc D - D ∧ i.val = wc D - 1
  · rw [if_pos hcond]
    apply and_keepMask_eq_self (x.words_lt i)
    intro p hp
    by_cases hp64 : p < 64
    · have ht : D ≤ 64 * (wc D - 1) + p := by omega
      have hxt := hx (64 * (wc D - 1) + p) ht
      rw [gBit_decomp (wc D) x.words (wc D - 1) p (by omega) hp64] at hxt
      have hieq : i = ⟨wc D - 1, by omega⟩ := Fin.ext hcond.2
      rw [hieq]
      exact hxt
    · exact Nat.testBit_lt_two_pow
        (lt_of_lt_of_le (x.words_lt i) (Nat.pow_le_pow_right (by norm_num) (by omega)))
  · rw [if_neg hcond]

theorem permuteRotate_zeroHV (D k : Nat) : permuteRotate (zeroHV D) k = zeroHV D := by
  apply HV.ext_words
  rw [permuteRotate_words_eq]
  funext i
  unfold applyTailMask rotWords zeroHV
  dsimp only
  split_ifs <;> simp [Nat.zero_shiftLeft, Nat.zero_shiftRight, Nat.zero_and]

theorem zeroHV_getBit (D t : Nat) : (zeroHV D).getBit t = false := by
  unfold zeroHV HV.getBit
  split <;> simp

/-- `Fnv1a64(token, seed)`: FNV-1a over the token bytes with seed folded into
the offset basis.  Tokens are byte lists (values reduced mod 256 as
`unsigned char`). -/
def fnv1a64 (seed : Nat) (token : List Nat) : Nat :=
  token.foldl (fun h b => ((h ^^^ b % 256) * 1099511628211) % 2 ^ 64)
    (1469598103934665603 ^^^ seed % 2 ^ 64)

/-- `DoubleHash(token, seed)`: `h1 = FNV1a(token, seed)`,
`h2 = FNV1a(token, seed XOR kTokenSalt)` forced odd. -/
def doubleHash (seed : Nat) (token : List Nat) : Nat × Nat :=
  (fnv1a64 seed token,
   ((fnv1a64 (seed % 2 ^ 64 ^^^ 0x5bf03635f0b7a54d) token <<< 1) % 2 ^ 64) ||| 1)

/-- `HashEncoder::EncodeToken({token, role}, out)`: clear `out`, set the `k`
double-hashed positions (no iterations when `num_hashes <= 0`), then left-rotate
by the role index when it is nonzero.  `k` is a C++ `int`. -/
def encodeToken (D : Nat) (k : Int) (seed : Nat) (token : List Nat) (role : Nat) : HV D :=
  let h := doubleHash seed token
  let base := setBits (zeroHV D)
    ((List.range k.toNat).map (fun i => ((h.1 + i * h.2) % 2 ^ 64) % D)) (fun _ => true)
  if role ≠ 0 then permuteRotate base role else base

/-- `HashEncoder::Update`: encode the token, then accumulate into the bundler. -/
def hashEncoderUpdate (D : Nat) (k : Int) (seed : Nat) (c : Fin D → Int)
    (token : List Nat) (role : Nat) : Fin D → Int :=
  bundlerAccumulate c (encodeToken D k seed token role)

/-!
## SequentialNGramEncoder (`encoding/encoders.hpp`)

State: circular history of `Window` symbols, head index, fill count, and the
bundler.  The bundler is instrumented as the list of hypervectors passed to
`Accumulate` (oldest first); the real counters are the fold of
`bundlerAccumulate` over that list.
-/

structure NGState (D W : Nat) : Type where
  hist : Fin W → Nat
  head : Nat
  count : Nat
  accs : List (HV D)

/-- Constructor / `Reset()`: zero history, head 0, count 0, bundler reset. -/
def ngReset (D W : Nat) : NGState D W := ⟨fun _ => 0, 0, 0, []⟩

/-- History read at a raw index (in range for every reachable state). -/
def histGet {W : Nat} (hist : Fin W → Nat) (i : Nat) : Nat :=
  if h : i < W then hist ⟨i, h⟩ else 0

/-- One term of the n-gram aggregate: the symbol hypervector at window offset
`o` (the code skips the rotation at offset 0). -/
def ngTerm (D W seed : Nat) (hist : Fin W → Nat) (head o : Nat) : HV D :=
  let h := generateRandomHypervector D seed (histGet hist ((head + W - 1 - o) % W))
  if o ≠ 0 then permuteRotate h o else h

/-- The aggregate formed by the `Update` loop: XOR-bind of the `W` window terms
(first term assigned, the rest bound in). -/
def ngAggregate (D W seed : Nat) (hist : Fin W → Nat) (head : Nat) : HV D :=
  match (List.range W).map (ngTerm D W seed hist head) with
  | [] => zeroHV D
  | h :: tl => tl.foldl bind h

/-- `SequentialNGramEncoder::Update(symbol)`. -/
def ngUpdate (D W seed : Nat) (st : NGState D W) (sym : Nat) : NGState D W :=
  let hist' : Fin W → Nat := fun j => if j.val = st.head then sym else st.hist j
  let head' := (st.head + 1) % W
  if st.count < W then
    { hist := hist', head := head', count := st.count + 1, accs := st.accs }
  else
    { hist := hist', head := head', count := st.count,
      accs := st.accs ++ [ngAggregate D W seed hist' head'] }

/-- The encoder state after `Reset` followed by the given symbol sequence. -/
def ngRun (D W seed : Nat) (syms : List Nat) : NGState D W :=
  syms.foldl (ngUpdate D W seed) (ngReset D W)

theorem ngRun_aux (D W seed : Nat) (syms : List Nat) :
    ∀ st : NGState D W, st.count ≤ W →
      (syms.foldl (ngUpdate D W seed) st).count = min (st.count + syms.length) W ∧
      (syms.foldl (ngUpdate D W seed) st).accs.length
        = st.accs.length + (st.count + syms.length - W) := by
  induction syms with
  | nil =>
    intro st h
    constructor
    · simp
      omega
    · simp
      omega
  | cons sym tl ih =>
    intro st h
    rw [List.foldl_cons]
    have hcount : (ngUpdate D W seed st sym).count
        = if st.count < W then st.count + 1 else st.count := by
      unfold ngUpdate
      split_ifs <;> rfl
    have haccs : (ngUpdate D W seed st sym).accs.length
        = if st.count < W then st.accs.length else st.accs.length + 1 := by
      unfold ngUpdate
      split_ifs <;> simp
    have hle : (ngUpdate D W seed st sym).count ≤ W := by
      rw [hcount]
      split_ifs <;> omega
    obtain ⟨h1, h2⟩ := ih (ngUpdate D W seed st sym) hle
    constructor
    · rw [h1, hcount]
      simp only [List.length_cons]
      split_ifs <;> omega
    · rw [h2, hcount, haccs]
      simp only [List.length_cons]
      split_ifs <;> omega

/-- After `m` updates from `Reset`, the bundler has received exactly
`m - W` accumulations (`Nat` subtraction: none until the `(W+1)`-th update). -/
theorem ngRun_accs_length (D W seed : Nat) (syms : List Nat) :
    (ngRun D W seed syms).accs.length = syms.length - W := by
  have h := ngRun_aux D W seed syms (ngReset D W) (by simp [ngReset])
  simpa [ngRun, ngReset] using h.2

/-!
## Associative memories (`memory/associative.hpp`)

`u64` parameters are reduced modulo `2^64` on entry (the C++ parameter type).
-/

/-- `size_t` subtraction `a - b` (wraps modulo `2^64`). -/
def wsub64 (a b : Nat) : Nat := (a % 2 ^ 64 + (2 ^ 64 - b % 2 ^ 64)) % 2 ^ 64

/-- Portable popcount from `core/ops.hpp` (Kernighan's loop). -/
def popcount64 (v : Nat) : Nat :=
  if h : v = 0 then 0 else 1 + popcount64 (v &&& (v - 1))
termination_by v
decreasing_by
  have hle : v &&& (v - 1) ≤ v - 1 := Nat.and_le_right
  omega

/-- Word `i` of a hypervector's storage (0 beyond the word count). -/
def wordAt {D : Nat} (x : HV D) (i : Nat) : Nat :=
  if h : i < wc D then x.words ⟨i, h⟩ else 0

/-- `HammingDistance(a, b)`: sum over words of `popcount(a[w] XOR b[w])`. -/
def hammingDistance {D : Nat} (a b : HV D) : Nat :=
  (List.range (wc D)).foldl (fun acc i => acc + popcount64 (wordAt a i ^^^ wordAt b i)) 0

/-- The best-match scan shared by `PrototypeMemory::Classify` and
`CleanupMemory::Restore`: iterate over the per-entry match scores in index
order, keeping the first strict maximum; `best_index` and `best_match` start
at 0. -/
def bestScan (ms : List Nat) : Nat × Nat :=
  ms.enum.foldl (fun a p => if p.2 > a.2 then p else a) (0, 0)

/-- `PrototypeMemory::Learn(label, hv)`: append while below capacity. -/
def protoLearn (C : Nat) {D : Nat} (st : List (Nat × HV D)) (label : Nat) (hv : HV D) :
    Bool × List (Nat × HV D) :=
  if st.length ≥ C then (false, st) else (true, st ++ [(label % 2 ^ 64, hv)])

/-- `PrototypeMemory::Classify(query, dist_fn, default_label)`: the overload with
a caller-provided distance functor.  Per entry `match = Dim - dist` in `size_t`
arithmetic; the entry with the greatest match wins (first index on ties). -/
def classifyWith {D : Nat} (dist : HV D → HV D → Nat) (st : List (Nat × HV D))
    (query : HV D) (defaultLabel : Nat) : Nat :=
  if st.length = 0 then defaultLabel % 2 ^ 64
  else
    let best := bestScan (st.map (fun e => wsub64 D (dist query e.2)))
    (st.getD best.1 (0, zeroHV D)).1

/-- `PrototypeMemory::Classify(query, default_label)`: default overload using
`HammingDistance`. -/
def classify {D : Nat} (st : List (Nat × HV D)) (query : HV D) (defaultLabel : Nat) : Nat :=
  classifyWith hammingDistance st query defaultLabel

/-- `ClusterMemory` observable state: parallel arrays of labels and counts plus
one row of `Dim` signed sums per cluster (the C++ stores rows contiguously in a
flat `sums_` array). -/
structure ClusterSt (D : Nat) : Type where
  labels : List Nat
  counts : List Int
  sums : List (List Int)

def clusterEmpty (D : Nat) : ClusterSt D := ⟨[], [], []⟩

/-- Per-bit `±1` increments added to a cluster row by `Update`. -/
def deltaRow {D : Nat} (hv : HV D) : List Int :=
  (List.range D).map (fun b => if hv.getBit b then 1 else -1)

/-- `ClusterMemory::Update(label, hv)`: find the row by linear scan; allocate a
fresh zero row when absent and below capacity (fail at capacity); then add
`±1` per bit and bump the count. -/
def clUpdate (C : Nat) {D : Nat} (st : ClusterSt D) (label0 : Nat) (hv : HV D) :
    Bool × ClusterSt D :=
  let label := label0 % 2 ^ 64
  match st.labels.findIdx? (· = label) with
  | some i =>
    (true, { labels := st.labels,
             counts := List.modify (· + 1) i st.counts,
             sums := List.modify (fun row => List.zipWith (· + ·) row (deltaRow hv)) i st.sums })
  | none =>
    if st.labels.length ≥ C then (false, st)
    else (true, { labels := st.labels ++ [label], counts := st.counts ++ [1],
                  sums := st.sums ++ [deltaRow hv] })

/-- `ClusterMemory::Finalize(label, out)`: `out` is cleared first, then bit `b`
is set iff `sums[row][b] >= 0`; unknown labels leave the cleared vector. -/
def clFinalize {D : Nat} (st : ClusterSt D) (label0 : Nat) : HV D :=
  let label := label0 % 2 ^ 64
  match st.labels.findIdx? (· = label) with
  | none => zeroHV D
  | some i =>
    let row := st.sums.getD i []
    setBits (zeroHV D) (List.range D) (fun b => decide (0 ≤ row.getD b 0))

/-- Arguments of `ClusterMemory::LoadRaw`; `none` models a null pointer
(`std::vector::data()` of an empty vector on mainstream standard libraries). -/
structure LoadRawArgs (D : Nat) : Type where
  labels : Option (List Nat)
  counts : Option (List Int)
  sums : Option (List (List Int))
  num : Nat

/-- `ClusterMemory::LoadRaw(args)`: requires an empty destination, non-null
inputs and `num <= Capacity`; copies the first `num` items of each array. -/
def clLoadRaw (C : Nat) {D : Nat} (st : ClusterSt D) (a : LoadRawArgs D) :
    Bool × ClusterSt D :=
  if st.labels.length ≠ 0 then (false, st)
  else
    match a.labels, a.counts, a.sums with
    | some ls, some cs, some ss =>
      if a.num > C then (false, st)
      else (true, ⟨ls.take a.num, cs.take a.num, ss.take a.num⟩)
    | _, _, _ => (false, st)

/-- `CleanupMemory::Insert(hv)`: append while below capacity. -/
def cleanupInsert (C : Nat) {D : Nat} (st : List (HV D)) (hv : HV D) :
    Bool × List (HV D) :=
  if st.length ≥ C then (false, st) else (true, st ++ [hv])

/-- `CleanupMemory::Restore({noisy, fallback})`: fallback when empty, else the
stored entry with the greatest `Dim - HammingDistance` match. -/
def cleanupRestore {D : Nat} (st : List (HV D)) (noisy fallback : HV D) : HV D :=
  if st.length = 0 then fallback
  else
    let best := bestScan (st.map (fun e => wsub64 D (hammingDistance noisy e)))
    st.getD best.1 (zeroHV D)

theorem wsub64_of_le (a b : Nat) (hb : b ≤ a) (ha : a < 2 ^ 64) : wsub64 a b = a - b := by
  unfold wsub64
  rw [Nat.mod_eq_of_lt ha, Nat.mod_eq_of_lt (lt_of_le_of_lt hb ha)]
  have h : a + (2 ^ 64 - b) = (a - b) + 2 ^ 64 := by omega
  rw [h, Nat.add_mod_right, Nat.mod_eq_of_lt (by omega)]

theorem wsub64_gt (a b : Nat) (hab : a < b) (hb : b < 2 ^ 64) :
    a < wsub64 a b := by
  unfold wsub64
  rw [Nat.mod_eq_of_lt (by omega : a < 2 ^ 64), Nat.mod_eq_of_lt hb,
    Nat.mod_eq_of_lt (by omega : a + (2 ^ 64 - b) < 2 ^ 64)]
  omega

theorem bestScan_aux (l : List Nat) : ∀ (k : Nat) (acc : Nat × Nat),
    ((List.enumFrom k l).foldl (fun a p => if p.2 > a.2 then p else a) acc = acc
      ∨ ∃ j, ∃ hj : j < l.length,
          ((List.enumFrom k l).foldl (fun a p => if p.2 > a.2 then p else a) acc).1 = k + j ∧
          ((List.enumFrom k l).foldl (fun a p => if p.2 > a.2 then p else a) acc).2
            = l.get ⟨j, hj⟩)
    ∧ (∀ j (hj : j < l.length),
        l.get ⟨j, hj⟩ ≤ ((List.enumFrom k l).foldl (fun a p => if p.2 > a.2 then p else a) acc).2)
    ∧ acc.2 ≤ ((List.enumFrom k l).foldl (fun a p => if p.2 > a.2 then p else a) acc).2 := by
  induction l with
  | nil =>
    intro k acc
    refine ⟨Or.inl rfl, fun j hj => absurd hj (by simp), le_refl _⟩
  | cons m tl ih =>
    intro k acc
    have hstep : List.enumFrom k (m :: tl) = (k, m) :: List.enumFrom (k + 1) tl := rfl
    rw [hstep, List.foldl_cons]
    set acc2 : Nat × Nat := if m > acc.2 then (k, m) else acc with hacc2def
    have hacc2snd : acc.2 ≤ acc2.2 ∧ m ≤ acc2.2 := by
      rw [hacc2def]
      by_cases hm : m > acc.2
      · rw [if_pos hm]
        omega
      · rw [if_neg hm]
        omega
    have hfold : ((k, m) :: List.enumFrom (k + 1) tl).foldl
        (fun a p => if p.2 > a.2 then p else a) acc
        = (List.enumFrom (k + 1) tl).foldl (fun a p => if p.2 > a.2 then p else a) acc2 := by
      rw [List.foldl_cons]
    obtain ⟨ih1, ih2, ih3⟩ := ih (k + 1) acc2
    refine ⟨?_, ?_, ?_⟩
    · rcases ih1 with h | ⟨j, hj, h1, h2⟩
      · rw [h]
        rw [hacc2def]
        by_cases hm : m > acc.2
        · rw [if_pos hm]
          exact Or.inr ⟨0, by simp, by omega, by simp⟩
        · rw [if_neg hm]
          exact Or.inl rfl
      · exact Or.inr ⟨j + 1, by simpa using hj, by omega, by simpa using h2⟩
    · intro j hj
      cases j with
      | zero =>
        show m ≤ _
        exact le_trans hacc2snd.2 ih3
      | succ jj =>
        exact ih2 jj (by simpa using hj)
    · exact le_trans hacc2snd.1 ih3

theorem bestScan_spec (ms : List Nat) (hne : ms ≠ []) :
    (bestScan ms).1 < ms.length ∧
    (∀ j (hj : j < ms.length), ms.get ⟨j, hj⟩ ≤ (bestScan ms).2) ∧
    ((bestScan ms).2 = 0 ∨ ∃ j, ∃ hj : j < ms.length,
        (bestScan ms).1 = j ∧ ms.get ⟨j, hj⟩ = (bestScan ms).2) := by
  have henum : ms.enum = List.enumFrom 0 ms := rfl
  obtain ⟨h1, h2, _⟩ := bestScan_aux ms 0 (0, 0)
  unfold bestScan
  rw [henum]
  rcases h1 with h | ⟨j, hj, hj1, hj2⟩
  · rw [h]
    refine ⟨List.length_pos.mpr hne, fun j hj => ?_, Or.inl rfl⟩
    rw [h] at h2
    exact h2 j hj
  · exact ⟨by omega, h2, Or.inr ⟨j, hj, by omega, hj2.symm⟩⟩

/-!
## Backend policy and environment threshold (`backend/policy.hpp`)

The environment variable is modelled as `Option (List Nat)` (absent, or the
byte string of its value).  `strtoull(..., 10)` follows C semantics: optional
whitespace, optional sign, decimal digits; out-of-range clamps to
`ULLONG_MAX`; a leading minus negates in the unsigned type.
-/

def isSpaceByte (b : Nat) : Bool := b = 32 || (9 ≤ b && b ≤ 13)

def isDigitByte (b : Nat) : Bool := 48 ≤ b && b ≤ 57

def digitsVal (ds : List Nat) : Nat := ds.foldl (fun acc d => acc * 10 + (d - 48)) 0

/-- `strtoull(s, &end, 10)`: returns (value, number of bytes consumed);
`consumed = 0` models `end == nptr` (no conversion). -/
def strtoull10 (s : List Nat) : Nat × Nat :=
  let ws := s.takeWhile isSpaceByte
  let r1 := s.dropWhile isSpaceByte
  let hasSign : Bool := match r1 with | c :: _ => c = 43 || c = 45 | [] => false
  let neg : Bool := match r1 with | c :: _ => c = 45 | [] => false
  let r2 := if hasSign then r1.tail else r1
  let ds := r2.takeWhile isDigitByte
  if ds.isEmpty then (0, 0)
  else
    let m := digitsVal ds
    let v := if m ≥ 2 ^ 64 then 2 ^ 64 - 1 else m
    let v2 := if neg then (2 ^ 64 - v) % 2 ^ 64 else v
    (v2, ws.length + (if hasSign then 1 else 0) + ds.length)

/-- `GetHammingThreshold()`: parsed env value when it parses completely and is
nonzero, else the compile-time default 16384. -/
def getHammingThreshold (env : Option (List Nat)) : Nat :=
  match env with
  | none => 16384
  | some s =>
    if s.isEmpty then 16384
    else
      let p := strtoull10 s
      if p.2 = 0 ∨ p.2 ≠ s.length then 16384
      else if p.1 = 0 then 16384
      else p.1

/-- `HammingThresholdOverridden()`: true iff the variable is set, non-empty and
parses completely (`end != env && *end == '\0'`). -/
def hammingThresholdOverridden (env : Option (List Nat)) : Bool :=
  match env with
  | none => false
  | some s =>
    if s.isEmpty then false
    else (strtoull10 s).2 ≠ 0 && (strtoull10 s).2 = s.length

/-- Backend kinds from `policy.hpp`. -/
inductive BackendKind : Type where
  | Scalar : BackendKind
  | SSE2 : BackendKind
  | AVX2 : BackendKind
  | NEON : BackendKind
deriving DecidableEq

/-- `HasFeature(mask, feature)` with `SSE2 = 0x1`, `AVX2 = 0x2`, `NEON = 0x4`. -/
def hasFeature (mask f : Nat) : Bool := mask &&& f ≠ 0

/-- `detail::DecideBind`: the `HYPERSTREAM_FORCE_SCALAR` compile switch is the
`forcedScalar` parameter. -/
def decideBind (forcedScalar : Bool) (mask : Nat) : BackendKind :=
  if forcedScalar then .Scalar
  else if hasFeature mask 2 then .AVX2
  else if hasFeature mask 1 then .SSE2
  else if hasFeature mask 4 then .NEON
  else .Scalar

/-- `detail::DecideHamming`: as `DecideBind` but preferring SSE2 over AVX2 for
`dim >= GetHammingThreshold()` when both are present. -/
def decideHamming (forcedScalar : Bool) (env : Option (List Nat)) (dim mask : Nat) :
    BackendKind :=
  if forcedScalar then .Scalar
  else if hasFeature mask 2 then
    if dim ≥ getHammingThreshold env ∧ hasFeature mask 1 then .SSE2 else .AVX2
  else if hasFeature mask 1 then .SSE2
  else if hasFeature mask 4 then .NEON
  else .Scalar

/-- The Hamming dispatch policy exactly as the spec words it (§4.4): forced
scalar first; SSE2 when AVX2 and SSE2 are both present and `D` is at least the
threshold; else AVX2, SSE2, NEON, Scalar in preference order. -/
def specDecideHamming (forcedScalar : Bool) (env : Option (List Nat)) (dim mask : Nat) :
    BackendKind :=
  if forcedScalar then .Scalar
  else if hasFeature mask 2 && hasFeature mask 1 && decide (dim ≥ getHammingThreshold env) then
    .SSE2
  else if hasFeature mask 2 then .AVX2
  else if hasFeature mask 1 then .SSE2
  else if hasFeature mask 4 then .NEON
  else .Scalar

/-- The Bind dispatch policy as the spec words it: same preference order,
no threshold rule. -/
def specDecideBind (forcedScalar : Bool) (mask : Nat) : BackendKind :=
  if forcedScalar then .Scalar
  else if hasFeature mask 2 then .AVX2
  else if hasFeature mask 1 then .SSE2
  else if hasFeature mask 4 then .NEON
  else .Scalar

/-!
## HSER1 serialization (`io/serialization.hpp`)

Streams are byte lists (little-endian fixed-width integers).  The 32-byte
header is `magic[5], kind u8, 2 bytes struct padding (zero-initialized),
dim u64, capacity u64, size u64`.  The writer is the default v1.1 writer
(`HYPERSTREAM_HSER1_WRITE_V1` not defined), which appends the `HSX1` + CRC32
trailer.
-/

/-- `k` little-endian bytes of `v`. -/
def enc : Nat → Nat → List Nat
  | 0, _ => []
  | k + 1, v => v % 256 :: enc k (v / 256)

/-- Little-endian decode of a byte list. -/
def dec (bs : List Nat) : Nat := bs.foldr (fun b acc => b + 256 * acc) 0

/-- 4 little-endian bytes of a C++ `int` (two's complement). -/
def encInt (z : Int) : List Nat := enc 4 (z % 2 ^ 32).toNat

/-- Decode 4 little-endian bytes as a C++ `int`. -/
def decInt (bs : List Nat) : Int :=
  let v := dec bs
  if v < 2 ^ 31 then (v : Int) else (v : Int) - 2 ^ 32

def magicBytes : List Nat := [72, 83, 69, 82, 49]

def hsx1Bytes : List Nat := [72, 83, 88, 49]

/-- The 32 bytes of a zero-initialized `Header` written by `MakeHeader`. -/
def headerBytes (kind dim cap size : Nat) : List Nat :=
  [72, 83, 69, 82, 49, kind, 0, 0] ++ enc 8 dim ++ enc 8 cap ++ enc 8 size

/-- One bit step of the table-less CRC32 (IEEE 802.3, poly `0xEDB88320`). -/
def crcBitStep (c : Nat) : Nat :=
  if c &&& 1 ≠ 0 then (c >>> 1) ^^^ 0xEDB88320 else c >>> 1

/-- `Crc32Update` for one byte: XOR in the byte, then 8 bit steps. -/
def crcByteStep (c b : Nat) : Nat :=
  crcBitStep (crcBitStep (crcBitStep (crcBitStep
    (crcBitStep (crcBitStep (crcBitStep (crcBitStep (c ^^^ b % 256))))))))

/-- `Crc32Update(crc, buffer)`: byte-wise CRC32 state update. -/
def crcUpdate (c : Nat) (bs : List Nat) : Nat := bs.foldl crcByteStep c

/-- Per-entry bytes of the Prototype body: `label u64` then `wc D` words. -/
def entryBytes {D : Nat} (e : Nat × HV D) : List Nat :=
  enc 8 e.1 ++ ((List.range (wc D)).map (fun i => enc 8 (wordAt e.2 i))).flatten

def bodyBytesProto {D : Nat} (entries : List (Nat × HV D)) : List Nat :=
  (entries.map entryBytes).flatten

/-- `SavePrototype` (v1.1 writer): header, body, `HSX1` trailer with
CRC32 over the body bytes. -/
def savePrototype (D C : Nat) (entries : List (Nat × HV D)) : List Nat :=
  let body := bodyBytesProto entries
  headerBytes 1 D C entries.length ++ body ++
    (hsx1Bytes ++ enc 4 (crcUpdate 0xFFFFFFFF body ^^^ 0xFFFFFFFF))

/-- `istream::read(buf, n)`: fails (and the caller bails out) on short reads. -/
def readBytes (n : Nat) (s : List Nat) : Option (List Nat × List Nat) :=
  if n ≤ s.length then some (s.take n, s.drop n) else none

/-- Reconstruct a hypervector from `wc D * 8` body bytes (the words are read
straight into the 64-bit storage). -/
def wordsOfBytes (D : Nat) (bs : List Nat) : HV D :=
  ⟨fun i => dec ((bs.drop (8 * i.val)).take 8) % 2 ^ 64,
   fun _ => Nat.mod_lt _ (by positivity)⟩

/-- The entry-reading loop of `LoadPrototype`: reads `n` entries, learning each
into the destination and updating the CRC state; returns the flag, the (possibly
partially filled) store, the remaining stream, and the CRC state. -/
def loadProtoEntries (D C : Nat) :
    Nat → List Nat → List (Nat × HV D) → Nat → Bool × List (Nat × HV D) × List Nat × Nat
  | 0, s, st, crc => (true, st, s, crc)
  | n + 1, s, st, crc =>
    match readBytes 8 s with
    | none => (false, st, s, crc)
    | some (lb, s1) =>
      let crc1 := crcUpdate crc lb
      match readBytes (8 * wc D) s1 with
      | none => (false, st, s1, crc1)
      | some (wb, s2) =>
        let crc2 := crcUpdate crc1 wb
        match protoLearn C st (dec lb) (wordsOfBytes D wb) with
        | (false, st2) => (false, st2, s2, crc2)
        | (true, st2) => loadProtoEntries D C n s2 st2 crc2

/-- `detail_ser::TryReadTrailer`: peek 4 tag bytes; on tag match read the CRC;
rewind (consume nothing) otherwise.  `stringstream` positions are always
seekable. -/
def tryReadTrailer (s : List Nat) : Option Nat × List Nat :=
  if s.length < 4 then (none, s)
  else if s.take 4 ≠ hsx1Bytes then (none, s)
  else if s.length < 8 then (none, s)
  else (some (dec ((s.drop 4).take 4)), s.drop 8)

/-- `LoadPrototype(stream, mem)`: requires an empty destination, validates the
header, loads the entries (mutating `mem` as it goes), then verifies the
optional trailer. -/
def loadPrototype (D C : Nat) (s : List Nat) (st : List (Nat × HV D)) :
    Bool × List (Nat × HV D) :=
  if st.length ≠ 0 then (false, st)
  else
    match readBytes 32 s with
    | none => (false, st)
    | some (h, rest) =>
      if h.take 5 ≠ magicBytes then (false, st)
      else if h.getD 5 0 ≠ 1 then (false, st)
      else if dec ((h.drop 8).take 8) ≠ D ∨ dec ((h.drop 16).take 8) ≠ C then (false, st)
      else if dec ((h.drop 24).take 8) > C then (false, st)
      else
        match loadProtoEntries D C (dec ((h.drop 24).take 8)) rest st 0xFFFFFFFF with
        | (false, st2, _, _) => (false, st2)
        | (true, st2, s2, crc) =>
          match tryReadTrailer s2 with
          | (none, _) => (true, st2)
          | (some crcFile, _) =>
            if crc ^^^ 0xFFFFFFFF ≠ crcFile then (false, st2) else (true, st2)

/-- Body bytes of a Cluster save: labels, then counts, then the row-major sums. -/
def bodyBytesCluster {D : Nat} (st : ClusterSt D) : List Nat :=
  (st.labels.map (enc 8)).flatten ++ (st.counts.map encInt).flatten
    ++ ((st.sums.flatten).map encInt).flatten

/-- `SaveCluster` (v1.1 writer): header, body (absent when `size = 0`), `HSX1`
trailer with CRC32 over the body bytes. -/
def saveCluster (D C : Nat) (st : ClusterSt D) : List Nat :=
  if st.labels.length = 0 then
    headerBytes 2 D C 0 ++ (hsx1Bytes ++ enc 4 ((0xFFFFFFFF : Nat) ^^^ 0xFFFFFFFF))
  else
    let body := bodyBytesCluster st
    headerBytes 2 D C st.labels.length ++ body ++
      (hsx1Bytes ++ enc 4 (crcUpdate 0xFFFFFFFF body ^^^ 0xFFFFFFFF))

/-- `LoadCluster(stream, mem)`: validates the header, reads the three arrays
into freshly sized `std::vector`s, calls `LoadRaw`, then verifies the optional
trailer.  For `size = 0` the vectors are empty and their `data()` pointers are
null on mainstream standard libraries, which `LoadRaw` rejects; this is
modelled by passing `none`. -/
def loadCluster (D C : Nat) (s : List Nat) (st : ClusterSt D) : Bool × ClusterSt D :=
  if st.labels.length ≠ 0 then (false, st)
  else
    match readBytes 32 s with
    | none => (false, st)
    | some (h, rest) =>
      if h.take 5 ≠ magicBytes then (false, st)
      else if h.getD 5 0 ≠ 2 then (false, st)
      else if dec ((h.drop 8).take 8) ≠ D ∨ dec ((h.drop 16).take 8) ≠ C then (false, st)
      else if dec ((h.drop 24).take 8) > C then (false, st)
      else if dec ((h.drop 24).take 8) = 0 then
        let r := clLoadRaw C st ⟨none, none, none, 0⟩
        if r.1 then
          match tryReadTrailer rest with
          | (none, _) => (true, r.2)
          | (some crcFile, _) =>
            if (0xFFFFFFFF : Nat) ^^^ 0xFFFFFFFF ≠ crcFile then (false, r.2) else (true, r.2)
        else (false, r.2)
      else
        let n := dec ((h.drop 24).take 8)
        match readBytes (8 * n) rest with
        | none => (false, st)
        | some (lb, s1) =>
          match readBytes (4 * n) s1 with
          | none => (false, st)
          | some (cb, s2) =>
            match readBytes (4 * n * D) s2 with
            | none => (false, st)
            | some (sb, s3) =>
              let labels := (List.range n).map (fun i => dec ((lb.drop (8 * i)).take 8))
              let counts := (List.range n).map (fun i => decInt ((cb.drop (4 * i)).take 4))
              let sums := (List.range n).map (fun i =>
                (List.range D).map (fun b => decInt ((sb.drop (4 * (i * D + b))).take 4)))
              let crc := crcUpdate (crcUpdate (crcUpdate 0xFFFFFFFF lb) cb) sb
              match clLoadRaw C st ⟨some labels, some counts, some sums, n⟩ with
              | (false, st2) => (false, st2)
              | (true, st2) =>
                match tryReadTrailer s3 with
                | (none, _) => (true, st2)
                | (some crcFile, _) =>
                  if crc ^^^ 0xFFFFFFFF ≠ crcFile then (false, st2) else (true, st2)

theorem enc_length (k v : Nat) : (enc k v).length = k := by
  induction k generalizing v with
  | zero => rfl
  | succ m ih => simp [enc, ih]

theorem dec_enc (k v : Nat) : dec (enc k v) = v % 256 ^ k := by
  induction k generalizing v with
  | zero => simp [enc, dec, Nat.mod_one]
  | succ m ih =>
    show (v % 256) + 256 * dec (enc m (v / 256)) = v % 256 ^ (m + 1)
    rw [ih]
    obtain ⟨A, B, c, hB, hc, hv⟩ :
        ∃ A B c, B < 256 ^ m ∧ c < 256 ∧ v = (c + 256 * B) + 256 * (256 ^ m * A) := by
      refine ⟨v / 256 / 256 ^ m, v / 256 % 256 ^ m, v % 256, Nat.mod_lt _ (by positivity),
        Nat.mod_lt _ (by norm_num), ?_⟩
      have h2 := Nat.div_add_mod (v / 256) (256 ^ m)
      calc v = 256 * (v / 256) + v % 256 := by omega
        _ = 256 * (256 ^ m * (v / 256 / 256 ^ m) + v / 256 % 256 ^ m) + v % 256 := by rw [h2]
        _ = (v % 256 + 256 * (v / 256 % 256 ^ m)) + 256 * (256 ^ m * (v / 256 / 256 ^ m)) := by
              ring
    have hm256 : v % 256 = c := by omega
    have hd256 : v / 256 = B + 256 ^ m * A := by omega
    have hmm : (B + 256 ^ m * A) % 256 ^ m = B := by
      rw [Nat.add_mul_mod_self_left, Nat.mod_eq_of_lt hB]
    rw [hm256, hd256, hmm]
    have hk : 256 ^ (m + 1) = 256 * 256 ^ m := by ring
    have hfold : 256 ^ (m + 1) * A = 256 * (256 ^ m * A) := by ring
    have hv2 : v = (c + 256 * B) + 256 ^ (m + 1) * A := by omega
    conv_rhs => rw [hv2]
    rw [Nat.add_mul_mod_self_left, Nat.mod_eq_of_lt (by omega)]

theorem encInt_length (z : Int) : (encInt z).length = 4 := enc_length _ _

theorem decInt_encInt (z : Int) (h1 : -(2 ^ 31) ≤ z) (h2 : z < 2 ^ 31) :
    decInt (encInt z) = z := by
  unfold decInt encInt
  rw [dec_enc]
  have hmod : (0 : Int) ≤ z % 2 ^ 32 := Int.emod_nonneg z (by norm_num)
  have hmod2 : z % 2 ^ 32 < 2 ^ 32 := Int.emod_lt_of_pos z (by norm_num)
  have hz : z % 2 ^ 32 = if 0 ≤ z then z else z + 2 ^ 32 := by
    by_cases hzpos : 0 ≤ z
    · rw [if_pos hzpos]
      exact Int.emod_eq_of_lt hzpos (by omega)
    · rw [if_neg hzpos]
      calc z % 2 ^ 32 = ((z + 2 ^ 32) + 2 ^ 32 * (-1)) % 2 ^ 32 := by congr 1; ring
        _ = (z + 2 ^ 32) % 2 ^ 32 := Int.add_mul_emod_self_left (z + 2 ^ 32) (2 ^ 32) (-1)
        _ = z + 2 ^ 32 := Int.emod_eq_of_lt (by omega) (by omega)
  have hlt : (z % 2 ^ 32).toNat < 256 ^ 4 := by
    have he : (256 : Nat) ^ 4 = 2 ^ 32 := by norm_num
    rw [he]
    omega
  rw [Nat.mod_eq_of_lt hlt]
  dsimp only
  by_cases hzpos : 0 ≤ z
  · rw [if_pos hzpos] at hz
    rw [hz]
    split <;> omega
  · rw [if_neg hzpos] at hz
    rw [hz]
    split <;> omega

theorem take_app {α : Type} (bs rest : List α) (n : Nat) (h : bs.length = n) :
    (bs ++ rest).take n = bs := by
  subst h
  exact List.take_left bs rest

theorem drop_app {α : Type} (bs rest : List α) (n : Nat) (h : bs.length = n) :
    (bs ++ rest).drop n = rest := by
  subst h
  exact List.drop_left bs rest

theorem crcBitStep_lt {c : Nat} (hc : c < 2 ^ 32) : crcBitStep c < 2 ^ 32 := by
  unfold crcBitStep
  have hs : c >>> 1 < 2 ^ 32 := lt_of_le_of_lt (shiftRight_le_self _ _) hc
  split
  · exact Nat.xor_lt_two_pow hs (by norm_num)
  · exact hs

theorem crcByteStep_lt {c : Nat} (b : Nat) (hc : c < 2 ^ 32) : crcByteStep c b < 2 ^ 32 := by
  unfold crcByteStep
  have h0 : c ^^^ b % 256 < 2 ^ 32 :=
    Nat.xor_lt_two_pow hc (lt_trans (Nat.mod_lt _ (by norm_num)) (by norm_num))
  exact crcBitStep_lt (crcBitStep_lt (crcBitStep_lt (crcBitStep_lt
    (crcBitStep_lt (crcBitStep_lt (crcBitStep_lt (crcBitStep_lt h0)))))))

theorem crcUpdate_lt {c : Nat} (bs : List Nat) (hc : c < 2 ^ 32) : crcUpdate c bs < 2 ^ 32 := by
  induction bs generalizing c with
  | nil => exact hc
  | cons b tl ih => exact ih (crcByteStep_lt b hc)

theorem crcUpdate_append (c : Nat) (xs ys : List Nat) :
    crcUpdate c (xs ++ ys) = crcUpdate (crcUpdate c xs) ys := List.foldl_append _ _ _ _

/-- Extracting chunk `i` from a flattened list of equal-length chunks. -/
theorem flatten_chunk {α : Type} (sz : Nat) :
    ∀ (l : List (List α)) (i : Nat) (hi : i < l.length),
      (∀ x ∈ l, x.length = sz) →
      ((l.flatten).drop (sz * i)).take sz = l.get ⟨i, hi⟩ := by
  intro l
  induction l with
  | nil => intro i hi; simp at hi
  | cons x tl ih =>
    intro i hi hlen
    have hx : x.length = sz := hlen x (by simp)
    cases i with
    | zero =>
      show ((x ++ tl.flatten).drop (sz * 0)).take sz = x
      rw [Nat.mul_zero, List.drop_zero]
      exact take_app x _ sz hx
    | succ j =>
      show ((x ++ tl.flatten).drop (sz * (j + 1))).take sz = tl.get ⟨j, by simpa using hi⟩
      have hdrop : (x ++ tl.flatten).drop (sz * (j + 1))
          = (tl.flatten).drop (sz * j) := by
        have h1 : sz * (j + 1) = x.length + sz * j := by rw [hx]; ring
        rw [h1, List.drop_append]
      rw [hdrop]
      exact ih j (by simpa using hi) (fun y hy => hlen y (by simp [hy]))

/-- A list is recovered by mapping an index function that matches its entries. -/
theorem map_range_eq {α : Type} (l : List α) (f : Nat → α)
    (h : ∀ i (hi : i < l.length), f i = l.get ⟨i, hi⟩) :
    (List.range l.length).map f = l := by
  apply List.ext_get
  · simp
  · intro i h1 h2
    simp only [List.get_eq_getElem, List.getElem_map, List.getElem_range]
    have := h i (by simpa using h2)
    simpa using this

theorem headerBytes_length (k d c s : Nat) : (headerBytes k d c s).length = 32 := by
  simp [headerBytes, enc_length]

theorem headerBytes_take5 (k d c s : Nat) : (headerBytes k d c s).take 5 = magicBytes := by
  simp [headerBytes, magicBytes]

theorem headerBytes_kind (k d c s : Nat) : (headerBytes k d c s).getD 5 0 = k := by
  simp [headerBytes, List.getD]

theorem headerBytes_drop8 (k d c s : Nat) :
    (headerBytes k d c s).drop 8 = enc 8 d ++ (enc 8 c ++ enc 8 s) := by
  simp [headerBytes, List.append_assoc]

theorem headerBytes_dim (k d c s : Nat) :
    ((headerBytes k d c s).drop 8).take 8 = enc 8 d := by
  rw [headerBytes_drop8]
  exact take_app _ _ _ (enc_length 8 d)

theorem headerBytes_cap (k d c s : Nat) :
    ((headerBytes k d c s).drop 16).take 8 = enc 8 c := by
  have h : (headerBytes k d c s).drop 16 = ((headerBytes k d c s).drop 8).drop 8 := by
    rw [List.drop_drop]
  rw [h, headerBytes_drop8, drop_app _ _ _ (enc_length 8 d)]
  exact take_app _ _ _ (enc_length 8 c)

theorem headerBytes_size (k d c s : Nat) :
    ((headerBytes k d c s).drop 24).take 8 = enc 8 s := by
  have h : (headerBytes k d c s).drop 24 = (((headerBytes k d c s).drop 8).drop 8).drop 8 := by
    rw [List.drop_drop, List.drop_drop]
  rw [h, headerBytes_drop8, drop_app _ _ _ (enc_length 8 d), drop_app _ _ _ (enc_length 8 c)]
  exact List.take_of_length_le (by rw [enc_length])

theorem readBytes_exact {n : Nat} (bs rest : List Nat) (h : bs.length = n) :
    readBytes n (bs ++ rest) = some (bs, rest) := by
  unfold readBytes
  rw [if_pos (by simp [h])]
  rw [take_app _ _ _ h, drop_app _ _ _ h]

theorem sum_map_const_nat {α : Type} (l : List α) (c : Nat) :
    (l.map (fun _ => c)).sum = l.length * c := by
  induction l with
  | nil => simp
  | cons x tl ih => simp [ih]; ring

theorem wordChunks_length {D : Nat} (x : HV D) :
    (((List.range (wc D)).map (fun i => enc 8 (wordAt x i))).flatten).length = 8 * wc D := by
  rw [List.length_flatten, List.map_map]
  have h : (List.map (List.length ∘ fun i => enc 8 (wordAt x i)) (List.range (wc D)))
      = (List.range (wc D)).map (fun _ => 8) := by
    apply List.map_congr_left
    intro i _
    exact enc_length 8 _
  rw [h, sum_map_const_nat]
  simp
  ring

theorem wordsOfBytes_roundtrip {D : Nat} (x : HV D) :
    wordsOfBytes D (((List.range (wc D)).map (fun i => enc 8 (wordAt x i))).flatten) = x := by
  apply HV.ext_words
  funext i
  show dec (((((List.range (wc D)).map (fun i => enc 8 (wordAt x i))).flatten).drop
      (8 * i.val)).take 8) % 2 ^ 64 = x.words i
  have hchunk := flatten_chunk 8 ((List.range (wc D)).map (fun i => enc 8 (wordAt x i)))
    i.val (by simp)
    (by
      intro y hy
      obtain ⟨j, _, rfl⟩ := List.mem_map.mp hy
      exact enc_length 8 _)
  rw [hchunk]
  have hget : ((List.range (wc D)).map (fun i => enc 8 (wordAt x i))).get
      ⟨i.val, by simp⟩ = enc 8 (wordAt x i.val) := by
    simp
  rw [hget, dec_enc]
  have h256 : (256 : Nat) ^ 8 = 2 ^ 64 := by norm_num
  rw [h256]
  have hw : wordAt x i.val = x.words i := by
    unfold wordAt
    rw [dif_pos i.isLt]
  rw [hw, Nat.mod_eq_of_lt (x.words_lt i), Nat.mod_eq_of_lt (x.words_lt i)]

theorem loadProtoEntries_succ (D C n : Nat) (s : List Nat) (st : List (Nat × HV D)) (crc : Nat) :
    loadProtoEntries D C (n + 1) s st crc
      = match readBytes 8 s with
        | none => (false, st, s, crc)
        | some (lb, s1) =>
          match readBytes (8 * wc D) s1 with
          | none => (false, st, s1, crcUpdate crc lb)
          | some (wb, s2) =>
            match protoLearn C st (dec lb) (wordsOfBytes D wb) with
            | (false, st2) => (false, st2, s2, crcUpdate (crcUpdate crc lb) wb)
            | (true, st2) => loadProtoEntries D C n s2 st2 (crcUpdate (crcUpdate crc lb) wb) :=
  rfl

theorem loadProtoEntries_roundtrip (D C : Nat) (es : List (Nat × HV D)) :
    ∀ (st : List (Nat × HV D)) (rest : List Nat) (crc : Nat),
      (∀ e ∈ es, e.1 < 2 ^ 64) → st.length + es.length ≤ C →
      loadProtoEntries D C es.length (bodyBytesProto es ++ rest) st crc
        = (true, st ++ es, rest, crcUpdate crc (bodyBytesProto es)) := by
  induction es with
  | nil =>
    intro st rest crc _ _
    simp [bodyBytesProto, loadProtoEntries, crcUpdate]
  | cons e tl ih =>
    intro st rest crc hlab hcap
    have hlabe : e.1 < 2 ^ 64 := hlab e (by simp)
    have hshape : bodyBytesProto (e :: tl) ++ rest
        = enc 8 e.1 ++
          ((((List.range (wc D)).map (fun i => enc 8 (wordAt e.2 i))).flatten)
            ++ (bodyBytesProto tl ++ rest)) := by
      simp [bodyBytesProto, entryBytes, List.append_assoc]
    have hlen : (e :: tl).length = tl.length + 1 := rfl
    rw [hlen, hshape, loadProtoEntries_succ, readBytes_exact _ _ (enc_length 8 e.1)]
    dsimp only
    rw [readBytes_exact _ _ (wordChunks_length e.2)]
    dsimp only
    have hdec : dec (enc 8 e.1) = e.1 := by
      rw [dec_enc]
      exact Nat.mod_eq_of_lt (lt_of_lt_of_le hlabe (by norm_num))
    have hlearn : protoLearn C st (dec (enc 8 e.1))
        (wordsOfBytes D (((List.range (wc D)).map (fun i => enc 8 (wordAt e.2 i))).flatten))
        = (true, st ++ [e]) := by
      unfold protoLearn
      rw [if_neg (by simp at hcap ⊢; omega)]
      rw [hdec, wordsOfBytes_roundtrip e.2]
      have he : (e.1 % 2 ^ 64, e.2) = e := by
        rw [Nat.mod_eq_of_lt hlabe]
      rw [he]
    rw [hlearn]
    dsimp only
    have hrec := ih (st ++ [e]) rest (crcUpdate (crcUpdate crc (enc 8 e.1))
        (((List.range (wc D)).map (fun i => enc 8 (wordAt e.2 i))).flatten))
      (fun x hx => hlab x (by simp [hx]))
      (by simp at hcap ⊢; omega)
    rw [hrec]
    have hst : (st ++ [e]) ++ tl = st ++ e :: tl := by simp
    have hcrc : crcUpdate (crcUpdate (crcUpdate crc (enc 8 e.1))
        (((List.range (wc D)).map (fun i => enc 8 (wordAt e.2 i))).flatten))
        (bodyBytesProto tl) = crcUpdate crc (bodyBytesProto (e :: tl)) := by
      rw [← crcUpdate_append, ← crcUpdate_append]
      congr 1
    rw [hst, hcrc]

theorem tryReadTrailer_hsx1 (v : Nat) (hv : v < 2 ^ 32) :
    tryReadTrailer (hsx1Bytes ++ enc 4 v) = (some v, []) := by
  unfold tryReadTrailer
  have hlen : (hsx1Bytes ++ enc 4 v).length = 8 := by simp [hsx1Bytes, enc_length]
  rw [if_neg (by omega), if_neg (by rw [take_app _ _ 4 (by simp [hsx1Bytes])]; simp),
    if_neg (by omega)]
  rw [drop_app _ _ 4 (by simp [hsx1Bytes]), List.take_of_length_le (by rw [enc_length]),
    dec_enc]
  rw [Nat.mod_eq_of_lt (by norm_num at hv ⊢; omega)]
  have hd : (hsx1Bytes ++ enc 4 v).drop 8 = [] := by
    apply List.drop_eq_nil_of_le
    omega
  rw [hd]

theorem loadPrototype_savePrototype (D C : Nat) (entries : List (Nat × HV D))
    (hD : D < 2 ^ 64) (hC : C < 2 ^ 64) (hlen : entries.length ≤ C)
    (hlab : ∀ e ∈ entries, e.1 < 2 ^ 64) :
    loadPrototype D C (savePrototype D C entries) [] = (true, entries) := by
  have hn : entries.length < 2 ^ 64 := lt_of_le_of_lt hlen hC
  have hdecD : dec (enc 8 D) = D := by
    rw [dec_enc]
    exact Nat.mod_eq_of_lt (by norm_num at hD ⊢; omega)
  have hdecC : dec (enc 8 C) = C := by
    rw [dec_enc]
    exact Nat.mod_eq_of_lt (by norm_num at hC ⊢; omega)
  have hdecN : dec (enc 8 entries.length) = entries.length := by
    rw [dec_enc]
    exact Nat.mod_eq_of_lt (by norm_num at hn ⊢; omega)
  unfold loadPrototype savePrototype
  rw [if_neg (by simp)]
  rw [List.append_assoc, readBytes_exact _ _ (headerBytes_length 1 D C entries.length)]
  dsimp only
  rw [headerBytes_take5, headerBytes_kind, headerBytes_dim, headerBytes_cap, headerBytes_size]
  rw [if_neg (by simp), if_neg (by simp), if_neg (by rw [hdecD, hdecC]; simp),
    if_neg (by rw [hdecN]; omega)]
  rw [hdecN,
    loadProtoEntries_roundtrip D C entries [] _ 0xFFFFFFFF hlab (by simpa using hlen)]
  dsimp only
  have hcrclt : crcUpdate 0xFFFFFFFF (bodyBytesProto entries) ^^^ 0xFFFFFFFF < 2 ^ 32 :=
    Nat.xor_lt_two_pow (crcUpdate_lt _ (by norm_num)) (by norm_num)
  rw [tryReadTrailer_hsx1 _ hcrclt]
  dsimp only
  rw [if_neg (by simp)]
  simp

theorem flatten_map_length {α β : Type} (l : List α) (f : α → List β) (sz : Nat)
    (h : ∀ x ∈ l, (f x).length = sz) : ((l.map f).flatten).length = sz * l.length := by
  rw [List.length_flatten, List.map_map]
  have heq : l.map (List.length ∘ f) = l.map (fun _ => sz) :=
    List.map_congr_left (fun x hx => h x hx)
  rw [heq, sum_map_const_nat]
  ring

theorem flatten_const_length {α : Type} (l : List (List α)) (sz : Nat)
    (h : ∀ x ∈ l, x.length = sz) : l.flatten.length = sz * l.length := by
  have hmap : l.map id = l := List.map_id l
  calc l.flatten.length = ((l.map id).flatten).length := by rw [hmap]
    _ = sz * l.length := flatten_map_length l id sz (by simpa using h)

theorem flatten_get_rowcol {α : Type} (sz : Nat) :
    ∀ (rows : List (List α)) (i b : Nat) (hi : i < rows.length) (hb : b < sz),
      (∀ r ∈ rows, r.length = sz) →
      ∀ (hidx : i * sz + b < rows.flatten.length) (hb2 : b < (rows.get ⟨i, hi⟩).length),
        rows.flatten.get ⟨i * sz + b, hidx⟩ = (rows.get ⟨i, hi⟩).get ⟨b, hb2⟩ := by
  intro rows
  induction rows with
  | nil => intro i b hi; simp at hi
  | cons r tl ih =>
    intro i b hi hb hrow hidx hb2
    have hr : r.length = sz := hrow r (by simp)
    cases i with
    | zero =>
      simp only [List.get_eq_getElem, List.flatten_cons]
      have hlt : 0 * sz + b < r.length := by omega
      rw [List.getElem_append_left hlt]
      congr 1
      omega
    | succ j =>
      simp only [List.get_eq_getElem, List.flatten_cons, List.getElem_cons_succ]
      have hge : r.length ≤ (j + 1) * sz + b := by
        have : (j + 1) * sz + b = sz + (j * sz + b) := by ring
        omega
      rw [List.getElem_append_right hge]
      have hidx2 : j * sz + b < tl.flatten.length := by
        simp only [List.flatten_cons, List.length_append] at hidx
        have : (j + 1) * sz + b = sz + (j * sz + b) := by ring
        omega
      have hi2 : j < tl.length := by simpa using hi
      have := ih j b hi2 hb (fun x hx => hrow x (by simp [hx])) hidx2
        (by simpa using hb2)
      simp only [List.get_eq_getElem] at this
      rw [← this]
      congr 1
      have : (j + 1) * sz + b - r.length = j * sz + b := by
        have h2 : (j + 1) * sz + b = sz + (j * sz + b) := by ring
        omega
      rw [this]

theorem chunked_map_recovery {α : Type} (sz : Nat) (encf : α → List Nat) (decf : List Nat → α)
    (l : List α) (hsz : ∀ x ∈ l, (encf x).length = sz)
    (hinv : ∀ x ∈ l, decf (encf x) = x) :
    (List.range l.length).map
      (fun i => decf ((((l.map encf).flatten).drop (sz * i)).take sz)) = l := by
  apply map_range_eq
  intro i hi
  have hchunk := flatten_chunk sz (l.map encf) i (by simpa using hi)
    (by
      intro y hy
      obtain ⟨x, hx, rfl⟩ := List.mem_map.mp hy
      exact hsz x hx)
  rw [hchunk]
  have hget : (l.map encf).get ⟨i, by simpa using hi⟩ = encf (l.get ⟨i, hi⟩) := by simp
  rw [hget, hinv _ (List.get_mem _ _ _)]

theorem sums_recovery (D : Nat) (rows : List (List Int))
    (hrow : ∀ r ∈ rows, r.length = D)
    (hsr : ∀ r ∈ rows, ∀ z ∈ r, -(2 ^ 31) ≤ z ∧ z < 2 ^ 31) :
    (List.range rows.length).map (fun i =>
      (List.range D).map (fun b =>
        decInt (((((rows.flatten).map encInt).flatten).drop (4 * (i * D + b))).take 4)))
      = rows := by
  apply map_range_eq
  intro i hi
  have hrowlen : (rows.get ⟨i, hi⟩).length = D := hrow _ (List.get_mem _ _ _)
  have hflatlen : rows.flatten.length = D * rows.length := flatten_const_length rows D hrow
  rw [show List.range D = List.range (rows.get ⟨i, hi⟩).length by rw [hrowlen]]
  apply map_range_eq
  intro b hb
  have hbD : b < D := by omega
  have hidx : i * D + b < rows.flatten.length := by
    rw [hflatlen]
    have h2 : i * D + D = (i + 1) * D := by ring
    have h3 : (i + 1) * D ≤ rows.length * D := Nat.mul_le_mul_right _ (by omega)
    have h4 : rows.length * D = D * rows.length := by ring
    omega
  have hchunk := flatten_chunk 4 ((rows.flatten).map encInt) (i * D + b)
    (by rw [List.length_map]; exact hidx)
    (by
      intro y hy
      obtain ⟨z, _, rfl⟩ := List.mem_map.mp hy
      exact encInt_length z)
  rw [hchunk]
  have hget : ((rows.flatten).map encInt).get ⟨i * D + b, by rw [List.length_map]; exact hidx⟩
      = encInt (rows.flatten.get ⟨i * D + b, hidx⟩) := by
    rw [List.get_eq_getElem, List.get_eq_getElem, List.getElem_map]
  rw [hget]
  have hrc := flatten_get_rowcol D rows i b hi hbD hrow hidx (by omega)
  rw [hrc]
  have hmem : (rows.get ⟨i, hi⟩).get ⟨b, by omega⟩ ∈ rows.get ⟨i, hi⟩ := List.get_mem _ _ _
  have hz := hsr _ (List.get_mem _ _ _) _ hmem
  exact decInt_encInt _ hz.1 hz.2

theorem loadCluster_saveCluster (D C : Nat) (st : ClusterSt D)
    (hD : D < 2 ^ 64) (hC : C < 2 ^ 64)
    (hn : st.labels.length ≤ C) (hne : st.labels.length ≠ 0)
    (hlab : ∀ x ∈ st.labels, x < 2 ^ 64)
    (hcnt : st.counts.length = st.labels.length)
    (hcntr : ∀ z ∈ st.counts, -(2 ^ 31) ≤ z ∧ z < 2 ^ 31)
    (hsums : st.sums.length = st.labels.length)
    (hrow : ∀ r ∈ st.sums, r.length = D)
    (hsr : ∀ r ∈ st.sums, ∀ z ∈ r, -(2 ^ 31) ≤ z ∧ z < 2 ^ 31) :
    loadCluster D C (saveCluster D C st) (clusterEmpty D) = (true, st) := by
  have hnlt : st.labels.length < 2 ^ 64 := lt_of_le_of_lt hn hC
  have hdecD : dec (enc 8 D) = D := by
    rw [dec_enc]
    exact Nat.mod_eq_of_lt (by norm_num at hD ⊢; omega)
  have hdecC : dec (enc 8 C) = C := by
    rw [dec_enc]
    exact Nat.mod_eq_of_lt (by norm_num at hC ⊢; omega)
  have hdecN : dec (enc 8 st.labels.length) = st.labels.length := by
    rw [dec_enc]
    exact Nat.mod_eq_of_lt (by norm_num at hnlt ⊢; omega)
  have hlbB : ((st.labels.map (enc 8)).flatten).length = 8 * st.labels.length :=
    flatten_map_length _ _ _ (fun x _ => enc_length 8 x)
  have hcbB : ((st.counts.map encInt).flatten).length = 4 * st.labels.length := by
    rw [flatten_map_length _ _ 4 (fun z _ => encInt_length z), hcnt]
  have hsbB : (((st.sums.flatten).map encInt).flatten).length = 4 * st.labels.length * D := by
    rw [flatten_map_length _ _ 4 (fun z _ => encInt_length z),
      flatten_const_length st.sums D hrow, hsums]
    ring
  unfold saveCluster loadCluster
  rw [if_neg (show ¬((clusterEmpty D).labels.length ≠ 0) by simp [clusterEmpty])]
  rw [if_neg (show ¬(st.labels.length = 0) by omega)]
  rw [List.append_assoc, readBytes_exact _ _ (headerBytes_length 2 D C st.labels.length)]
  dsimp only
  rw [headerBytes_take5, headerBytes_kind, headerBytes_dim, headerBytes_cap, headerBytes_size]
  rw [if_neg (by simp), if_neg (by simp), if_neg (by rw [hdecD, hdecC]; simp),
    if_neg (by rw [hdecN]; omega), if_neg (by rw [hdecN]; omega)]
  rw [hdecN]
  have hshape : bodyBytesCluster st ++ (hsx1Bytes ++
      enc 4 (crcUpdate 0xFFFFFFFF (bodyBytesCluster st) ^^^ 0xFFFFFFFF))
      = (st.labels.map (enc 8)).flatten ++
        ((st.counts.map encInt).flatten ++
          (((st.sums.flatten).map encInt).flatten ++ (hsx1Bytes ++
            enc 4 (crcUpdate 0xFFFFFFFF (bodyBytesCluster st) ^^^ 0xFFFFFFFF)))) := by
    unfold bodyBytesCluster
    simp [List.append_assoc]
  rw [hshape, readBytes_exact _ _ hlbB]
  dsimp only
  rw [readBytes_exact _ _ hcbB]
  dsimp only
  rw [readBytes_exact _ _ hsbB]
  dsimp only
  have hlrec := chunked_map_recovery 8 (enc 8) dec st.labels
    (fun x _ => enc_length 8 x)
    (fun x hx => by
      rw [dec_enc]
      exact Nat.mod_eq_of_lt (by have := hlab x hx; norm_num at this ⊢; omega))
  have hcrec := chunked_map_recovery 4 encInt decInt st.counts
    (fun z _ => encInt_length z)
    (fun z hz => decInt_encInt z (hcntr z hz).1 (hcntr z hz).2)
  rw [hcnt] at hcrec
  have hsrec := sums_recovery D st.sums hrow hsr
  rw [hsums] at hsrec
  rw [hlrec, hcrec, hsrec]
  have hload : clLoadRaw C (clusterEmpty D)
      ⟨some st.labels, some st.counts, some st.sums, st.labels.length⟩ = (true, st) := by
    unfold clLoadRaw clusterEmpty
    rw [if_neg (by simp)]
    dsimp only
    rw [if_neg (by omega)]
    have h1 : st.labels.take st.labels.length = st.labels := List.take_length st.labels
    have h2 : st.counts.take st.labels.length = st.counts := by
      rw [← hcnt]
      exact List.take_length st.counts
    have h3 : st.sums.take st.labels.length = st.sums := by
      rw [← hsums]
      exact List.take_length st.sums
    rw [h1, h2, h3]
  rw [hload]
  dsimp only
  have hcrclt : crcUpdate 0xFFFFFFFF (bodyBytesCluster st) ^^^ 0xFFFFFFFF < 2 ^ 32 :=
    Nat.xor_lt_two_pow (crcUpdate_lt _ (by norm_num)) (by norm_num)
  rw [tryReadTrailer_hsx1 _ hcrclt]
  dsimp only
  rw [if_neg (by
    rw [← crcUpdate_append, ← crcUpdate_append]
    unfold bodyBytesCluster
    simp [List.append_assoc])]

/-- The n-gram aggregate exactly as the spec words it: FOLD_XOR over offset
`o ∈ [0, W)` of `rotate_left(HV(seed, history[(head - 1 - o) mod W]), o)`, with
the rotation applied at every offset (including `o = 0`). -/
def specNGramAggregate (D W seed : Nat) (hist : Fin W → Nat) (head : Nat) : HV D :=
  match (List.range W).map (fun o =>
    permuteRotate (generateRandomHypervector D seed
      (histGet hist ((head + W - 1 - o) % W))) o) with
  | [] => zeroHV D
  | h :: tl => tl.foldl bind h

theorem ngTerm_eq_spec (D W seed : Nat) (hist : Fin W → Nat) (head o : Nat) :
    ngTerm D W seed hist head o
      = permuteRotate (generateRandomHypervector D seed
          (histGet hist ((head + W - 1 - o) % W))) o := by
  unfold ngTerm
  by_cases ho : o ≠ 0
  · rw [if_pos ho]
  · rw [if_neg ho]
    push_neg at ho
    subst ho
    exact (permuteRotate_zero_tailZero _ (tailZero_generateRandomHypervector D seed _)).symm

theorem ngAggregate_eq_spec (D W seed : Nat) (hist : Fin W → Nat) (head : Nat) :
    ngAggregate D W seed hist head = specNGramAggregate D W seed hist head := by
  unfold ngAggregate specNGramAggregate
  rw [show (List.range W).map (ngTerm D W seed hist head)
      = (List.range W).map (fun o => permuteRotate (generateRandomHypervector D seed
          (histGet hist ((head + W - 1 - o) % W))) o) from
    List.map_congr_left (fun o _ => ngTerm_eq_spec D W seed hist head o)]

/-- Concrete vectors used in counterexamples and witnesses. -/
def ex32 : HV 32 := ⟨fun _ => 1, fun _ => by norm_num⟩

def ex64 : HV 64 := ⟨fun _ => 0x123456789abcdef, fun _ => by norm_num⟩

/-!
## Claim theorems
-/

/-- C2 (counterexample): the claim asserts `PermuteRotate(x, D) = x` for every
dimension `D` and tail-clean `x`.  At `D = 32` the vector with bit 0 set is
tail-clean, yet rotating by `D = 32` shifts the bit into the masked tail and
zeroes the vector, so `PermuteRotate(x, 32) ≠ x`. -/
theorem C2_rotate_counterexample : ex32.tailZero ∧ permuteRotate ex32 32 ≠ ex32 :=
  ⟨by decide, by decide⟩

/-- C2 (amended): for every dimension `D` that is a multiple of 64 (so the word
span carries no masked tail), `PermuteRotate` is an exact left-rotate over the
`D` logical bits: rotating by 0 or by `D` is the identity, rotations compose
additively modulo `D`, and bit `t` of the output is bit
`(t + D - k mod D) mod D` of the input. -/
theorem C2_rotate_identities (D : Nat) (hD : 0 < D) (h64 : 64 ∣ D) (x : HV D) (a b : Nat) :
    permuteRotate x 0 = x ∧ permuteRotate x D = x ∧
    permuteRotate (permuteRotate x a) b = permuteRotate x ((a + b) % D) ∧
    (∀ k t, t < D → (permuteRotate x k).getBit t = x.getBit ((t + (D - k % D)) % D)) :=
  ⟨permuteRotate_zero_dvd hD h64 x, permuteRotate_dim_dvd hD h64 x,
   permuteRotate_comp_dvd hD h64 x a b,
   fun k t ht => getBit_permuteRotate_dvd hD h64 x k t ht⟩

theorem C2_rotate_identities_witness :
    0 < 64 ∧ 64 ∣ 64 ∧
    (permuteRotate ex64 0 = ex64 ∧ permuteRotate ex64 64 = ex64 ∧
     permuteRotate (permuteRotate ex64 3) 5 = permuteRotate ex64 ((3 + 5) % 64) ∧
     (∀ k t, t < 64 → (permuteRotate ex64 k).getBit t
        = ex64.getBit ((t + (64 - k % 64)) % 64))) :=
  ⟨by norm_num, by norm_num, C2_rotate_identities 64 (by norm_num) (by norm_num) ex64 3 5⟩

/-- C8: with the default 16-bit saturating counters, every bundler counter
stays within `[-32768, 32767]` after any sequence of `Accumulate` calls from
`Reset` (hence also for `≥ 2^32` calls); an accumulate on a 1-bit increments
the counter unless it is at the maximum and on a 0-bit decrements it unless it
is at the minimum; and `Finalize` sets output bit `i` iff `counter[i] ≥ 0`. -/
theorem C8_bundler_saturation (D : Nat) (hvs : List (HV D)) (i : Fin D)
    (c : Fin D → Int) (hv : HV D) (out : HV D) :
    (-32768 ≤ bundlerRun hvs i ∧ bundlerRun hvs i ≤ 32767) ∧
    (bundlerAccumulate c hv i
      = if hv.getBit i.val then (if c i = 32767 then c i else c i + 1)
        else (if c i = -32768 then c i else c i - 1)) ∧
    ((bundlerFinalize c out).getBit i.val = decide (0 ≤ c i)) := by
  refine ⟨bundlerRun_bounds hvs i, ?_, getBit_bundlerFinalize c out i⟩
  unfold bundlerAccumulate
  by_cases hb : hv.getBit i.val <;> by_cases h1 : c i = 32767 <;>
    by_cases h2 : c i = -32768 <;> simp [hb, h1, h2]

/-- C10 (counterexample): the claim says every `Update` of a `HashEncoder`
with `num_hashes ≤ 0` decrements all `D` bundler counters by one,
unconditionally.  A counter already at the saturation minimum `-32768`
(reachable after 32768 such updates from `Reset`) is left unchanged by the
saturating decrement, not decreased to `-32769`. -/
theorem C10_hash_encoder_counterexample :
    hashEncoderUpdate 1 0 5 (fun _ => -32768) [] 0 ⟨0, by norm_num⟩
      = -32768 ∧
    hashEncoderUpdate 1 0 5 (fun _ => -32768) [] 0 ⟨0, by norm_num⟩
      ≠ (fun _ => (-32768 : Int)) (⟨0, by norm_num⟩ : Fin 1) - 1 := by
  refine ⟨by decide, by decide⟩

/-- C10 (amended): a `HashEncoder` constructed with `num_hashes ≤ 0` sets no
bits in `EncodeToken` — the hash loop has no iterations and rotating the zero
vector yields the zero vector — so every token and role encode to the all-zero
hypervector, and every `Update` therefore applies a saturating decrement to
each bundler counter: it decreases by one unless it is already at the minimum
`-32768`, where it stays. -/
theorem C10_hash_encoder_saturating_update (D : Nat) (k : Int) (seed : Nat)
    (token : List Nat) (role : Nat) (c : Fin D → Int) (i : Fin D) (hk : k ≤ 0) :
    encodeToken D k seed token role = zeroHV D ∧
    hashEncoderUpdate D k seed c token role i
      = if c i = -32768 then c i else c i - 1 := by
  have henc : encodeToken D k seed token role = zeroHV D := by
    unfold encodeToken
    have hk0 : k.toNat = 0 := Int.toNat_of_nonpos hk
    rw [hk0]
    dsimp only
    rw [show List.range 0 = [] from rfl]
    dsimp only [List.map_nil, setBits, List.foldl_nil]
    by_cases hr : role ≠ 0
    · rw [if_pos hr, permuteRotate_zeroHV]
    · rw [if_neg hr]
  refine ⟨henc, ?_⟩
  unfold hashEncoderUpdate
  rw [henc]
  unfold bundlerAccumulate
  rw [zeroHV_getBit]
  by_cases hc : c i = -32768 <;> simp [hc]

theorem C10_hash_encoder_witness :
    (-3 : Int) ≤ 0 ∧
    (encodeToken 2 (-3) 99 [65, 66] 1 = zeroHV 2 ∧
     hashEncoderUpdate 2 (-3) 99 (fun _ => 0) [65, 66] 1 ⟨0, by norm_num⟩
       = if (fun _ => (0 : Int)) (⟨0, by norm_num⟩ : Fin 2) = -32768
         then (fun _ => (0 : Int)) (⟨0, by norm_num⟩ : Fin 2)
         else (fun _ => (0 : Int)) (⟨0, by norm_num⟩ : Fin 2) - 1) :=
  ⟨by norm_num,
   C10_hash_encoder_saturating_update 2 (-3) 99 [65, 66] 1 (fun _ => 0) ⟨0, by norm_num⟩
     (by norm_num)⟩

/-- C9: in `PrototypeMemory::Classify` with a caller-provided distance functor,
`match = Dim - dist` is computed in `size_t` arithmetic with no range check, so
whenever the functor reports a distance above `Dim` on some stored entry, the
wrapped match exceeds every non-wrapped match and the classifier returns the
label of an entry whose distance exceeds `Dim`. -/
theorem C9_classify_wrapped_match (D : Nat) (dist : HV D → HV D → Nat)
    (st : List (Nat × HV D)) (q : HV D) (d0 : Nat)
    (hD : D < 2 ^ 64)
    (hdist : ∀ e ∈ st, dist q e.2 < 2 ^ 64)
    (hex : ∃ e ∈ st, D < dist q e.2) :
    ∃ e ∈ st, classifyWith dist st q d0 = e.1 ∧ D < dist q e.2 := by
  obtain ⟨e0, he0, he0d⟩ := hex
  have hne : st ≠ [] := by
    intro h
    rw [h] at he0
    exact absurd he0 (List.not_mem_nil e0)
  have hmslen : (st.map (fun e => wsub64 D (dist q e.2))).length = st.length := by simp
  have hmsne : st.map (fun e => wsub64 D (dist q e.2)) ≠ [] := by
    intro h
    apply hne
    have := congrArg List.length h
    rw [hmslen] at this
    exact List.eq_nil_of_length_eq_zero this
  obtain ⟨hb1, hb2, hb3⟩ := bestScan_spec (st.map (fun e => wsub64 D (dist q e.2))) hmsne
  obtain ⟨j0, rfl⟩ := List.mem_iff_get.mp he0
  have hj0lt : j0.val < (st.map (fun e => wsub64 D (dist q e.2))).length := by
    have := j0.isLt
    omega
  have hmsj0 : (st.map (fun e => wsub64 D (dist q e.2))).get ⟨j0.val, hj0lt⟩
      = wsub64 D (dist q (st.get j0).2) := by
    simp
  have hwrap : D < wsub64 D (dist q (st.get j0).2) :=
    wsub64_gt D _ he0d (hdist _ (List.get_mem st _ _))
  have hmax : D < (bestScan (st.map (fun e => wsub64 D (dist q e.2)))).2 := by
    have := hb2 j0.val hj0lt
    rw [hmsj0] at this
    omega
  rcases hb3 with h0 | ⟨j, hj, hbidx, hbval⟩
  · omega
  · have hjst : j < st.length := by omega
    refine ⟨st.get ⟨j, hjst⟩, List.get_mem st _ _, ?_, ?_⟩
    · unfold classifyWith
      rw [if_neg (fun h => hne (List.eq_nil_of_length_eq_zero h))]
      dsimp only
      rw [hbidx, List.getD_eq_getElem _ _ hjst]
      simp
    · by_contra hle
      push_neg at hle
      have hval : (st.map (fun e => wsub64 D (dist q e.2))).get ⟨j, hj⟩
          = wsub64 D (dist q (st.get ⟨j, hjst⟩).2) := by
        simp
      rw [hval] at hbval
      rw [wsub64_of_le D _ hle hD] at hbval
      omega

theorem C9_classify_wrapped_match_witness :
    1 < 2 ^ 64 ∧ (∀ e ∈ [((7 : Nat), zeroHV 1)], (fun (_ _ : HV 1) => 2) (zeroHV 1) e.2 < 2 ^ 64)
      ∧ (∃ e ∈ [((7 : Nat), zeroHV 1)], 1 < (fun (_ _ : HV 1) => 2) (zeroHV 1) e.2)
      ∧ ∃ e ∈ [((7 : Nat), zeroHV 1)],
          classifyWith (fun _ _ => 2) [((7 : Nat), zeroHV 1)] (zeroHV 1) 0 = e.1
            ∧ 1 < (fun (_ _ : HV 1) => 2) (zeroHV 1) e.2 :=
  ⟨by norm_num, by intro e _; norm_num, ⟨(7, zeroHV 1), by simp, by norm_num⟩,
   C9_classify_wrapped_match 1 (fun _ _ => 2) [((7 : Nat), zeroHV 1)] (zeroHV 1) 0
     (by norm_num) (by intro e _; norm_num) ⟨(7, zeroHV 1), by simp, by norm_num⟩⟩

/-- C4: for every feature mask, dimension, threshold environment and the
forced-scalar compile switch, `detail::DecideHamming` and `detail::DecideBind`
select exactly the backends described by the spec's §4.4 policy: scalar when
forced; SSE2 when AVX2 and SSE2 are both present and `D` reaches the threshold
(Hamming only); else AVX2, SSE2, NEON, Scalar in preference order. -/
theorem C4_dispatch_policy (forced : Bool) (env : Option (List Nat)) (dim mask : Nat) :
    decideHamming forced env dim mask = specDecideHamming forced env dim mask ∧
    decideBind forced mask = specDecideBind forced mask := by
  constructor
  · unfold decideHamming specDecideHamming
    cases forced with
    | true => rfl
    | false =>
      by_cases h2 : hasFeature mask 2 <;> by_cases h1 : hasFeature mask 1 <;>
        by_cases hd : dim ≥ getHammingThreshold env <;>
          simp [h2, h1, hd]
  · rfl

/-- C7 (counterexample): the claim says `HammingThresholdOverridden` returns
false for every invalid string including `"0"` and negative numbers, and that
`GetHammingThreshold` returns the default for them.  On the code, `"0"` parses
completely so `HammingThresholdOverridden` returns true (while the threshold
still falls back to 16384), and `"-5"` parses via `strtoull`'s sign handling to
the wrapped value `2^64 - 5`, which `GetHammingThreshold` returns. -/
theorem C7_threshold_counterexample :
    hammingThresholdOverridden (some [48]) = true ∧
    getHammingThreshold (some [48]) = 16384 ∧
    hammingThresholdOverridden (some [45, 53]) = true ∧
    getHammingThreshold (some [45, 53]) = 2 ^ 64 - 5 := by
  refine ⟨by decide, by decide, by decide, by decide⟩

/-- C7 (amended): `HammingThresholdOverridden` is true iff the variable is set,
non-empty and `strtoull` consumes the entire string (regardless of the parsed
value, so also for `"0"` and negative inputs); `GetHammingThreshold` returns the
parsed `u64` value exactly when additionally that value is nonzero, and the
compile-time default 16384 otherwise (also when the variable is absent). -/
theorem C7_threshold_amended (s : List Nat) :
    (hammingThresholdOverridden (some s)
      = (!s.isEmpty && ((strtoull10 s).2 ≠ 0 && ((strtoull10 s).2 = s.length)))) ∧
    (getHammingThreshold (some s)
      = if hammingThresholdOverridden (some s) = true ∧ (strtoull10 s).1 ≠ 0
        then (strtoull10 s).1 else 16384) ∧
    getHammingThreshold none = 16384 ∧
    hammingThresholdOverridden none = false := by
  refine ⟨?_, ?_, rfl, rfl⟩
  · unfold hammingThresholdOverridden
    by_cases he : s.isEmpty <;> simp [he]
  · unfold getHammingThreshold hammingThresholdOverridden
    by_cases he : s.isEmpty
    · simp [he]
    · by_cases h0 : (strtoull10 s).2 = 0
      · simp [he, h0]
      · by_cases hl : (strtoull10 s).2 = s.length
        · by_cases hv : (strtoull10 s).1 = 0 <;> simp [he, h0, hl, hv]
        · simp [he, h0, hl]

/-- C6 (counterexample): the claim says every mutating operation fails when
`size = capacity`.  With `Capacity = 1`, after one `Update(5, hv)` the cluster
store is full, yet a second `Update(5, hv)` on the existing label succeeds
(returns true) and modifies the store (the count becomes 2). -/
theorem C6_capacity_counterexample :
    ((clUpdate 1 (clusterEmpty 1) 5 (zeroHV 1)).2).labels.length = 1 ∧
    (clUpdate 1 ((clUpdate 1 (clusterEmpty 1) 5 (zeroHV 1)).2) 5 (zeroHV 1)).1 = true ∧
    ((clUpdate 1 ((clUpdate 1 (clusterEmpty 1) 5 (zeroHV 1)).2) 5 (zeroHV 1)).2).counts
      = [2] ∧
    ((clUpdate 1 (clusterEmpty 1) 5 (zeroHV 1)).2).counts = [1] := by
  refine ⟨by decide, by decide, by decide, by decide⟩

/-- C6 (amended): at `size = capacity`, `Learn` and `Insert` fail leaving the
store unchanged, and `Update` fails leaving the store unchanged when the label
is not already stored (an `Update` on a stored label succeeds even at
capacity); with `Capacity = 0` every mutation fails and every query returns its
empty-case default (`Classify` the default label, `Finalize` the zero vector,
`Restore` the fallback). -/
theorem C6_capacity_semantics (D C : Nat) (stp : List (Nat × HV D)) (stc : List (HV D))
    (st : ClusterSt D) (lbl : Nat) (hv : HV D) (q noisy fb : HV D) (dl : Nat)
    (hp : stp.length = C) (hcl : stc.length = C) (hcluster : st.labels.length = C)
    (hfind : st.labels.findIdx? (· = lbl % 2 ^ 64) = none) :
    protoLearn C stp lbl hv = (false, stp) ∧
    cleanupInsert C stc hv = (false, stc) ∧
    clUpdate C st lbl hv = (false, st) ∧
    (C = 0 → classify ([] : List (Nat × HV D)) q dl = dl % 2 ^ 64 ∧
      clFinalize (clusterEmpty D) lbl = zeroHV D ∧
      cleanupRestore ([] : List (HV D)) noisy fb = fb) := by
  refine ⟨?_, ?_, ?_, ?_⟩
  · unfold protoLearn
    rw [if_pos (by omega)]
  · unfold cleanupInsert
    rw [if_pos (by omega)]
  · unfold clUpdate
    dsimp only
    rw [hfind]
    dsimp only
    rw [if_pos (by omega)]
  · intro _
    refine ⟨rfl, rfl, rfl⟩

theorem C6_capacity_semantics_witness :
    ([((9 : Nat), zeroHV 1)].length = 1 ∧ [zeroHV 1].length = 1 ∧
      ((⟨[4], [1], [[0]]⟩ : ClusterSt 1).labels.length = 1) ∧
      (⟨[4], [1], [[0]]⟩ : ClusterSt 1).labels.findIdx? (· = 5 % 2 ^ 64) = none) ∧
    (protoLearn 1 [((9 : Nat), zeroHV 1)] 5 (zeroHV 1) = (false, [((9 : Nat), zeroHV 1)]) ∧
     cleanupInsert 1 [zeroHV 1] (zeroHV 1) = (false, [zeroHV 1]) ∧
     clUpdate 1 (⟨[4], [1], [[0]]⟩ : ClusterSt 1) 5 (zeroHV 1)
       = (false, (⟨[4], [1], [[0]]⟩ : ClusterSt 1)) ∧
     ((1 : Nat) = 0 → classify ([] : List (Nat × HV 1)) (zeroHV 1) 7 = 7 % 2 ^ 64 ∧
       clFinalize (clusterEmpty 1) 5 = zeroHV 1 ∧
       cleanupRestore ([] : List (HV 1)) (zeroHV 1) (zeroHV 1) = zeroHV 1)) :=
  ⟨⟨by decide, by decide, by decide, by decide⟩,
   C6_capacity_semantics 1 1 [((9 : Nat), zeroHV 1)] [zeroHV 1] ⟨[4], [1], [[0]]⟩ 5
     (zeroHV 1) (zeroHV 1) (zeroHV 1) (zeroHV 1) 7 (by decide) (by decide) (by decide)
     (by decide)⟩

/-- C5 (counterexample): the claim says the bundler has received `m - W + 1`
accumulations after `m ≥ W` updates.  With `W = 2` and `m = 2` the code has
accumulated nothing (the `W`-th update still returns before forming an
aggregate), not `m - W + 1 = 1`. -/
theorem C5_ngram_counterexample :
    (ngRun 4 2 99 [1, 2]).accs.length ≠ [1, 2].length - 2 + 1 := by decide

/-- C5 (amended): the first `W` `Update` calls accumulate nothing; every call
from the `(W+1)`-th onward forms the spec's aggregate
`FOLD_XOR over o ∈ [0, W) of rotate_left(HV(seed, history[(head-1-o) mod W]), o)`
and accumulates it, so after `m` updates the bundler has received exactly
`m - W` accumulations (`Nat` subtraction, hence 0 for `m ≤ W`). -/
theorem C5_ngram_update (D W seed : Nat) (syms : List Nat) (st : NGState D W) (sym : Nat)
    (hcount : W ≤ st.count) :
    (ngRun D W seed syms).accs.length = syms.length - W ∧
    ngUpdate D W seed st sym
      = { hist := fun j => if j.val = st.head then sym else st.hist j,
          head := (st.head + 1) % W, count := st.count,
          accs := st.accs ++ [specNGramAggregate D W seed
            (fun j => if j.val = st.head then sym else st.hist j) ((st.head + 1) % W)] } := by
  refine ⟨ngRun_accs_length D W seed syms, ?_⟩
  unfold ngUpdate
  rw [if_neg (by omega)]
  rw [ngAggregate_eq_spec]

theorem C5_ngram_update_witness :
    1 ≤ (⟨fun _ => 0, 0, 1, []⟩ : NGState 4 1).count ∧
    ((ngRun 4 1 99 [1, 2, 3]).accs.length = [1, 2, 3].length - 1 ∧
     ngUpdate 4 1 99 (⟨fun _ => 0, 0, 1, []⟩ : NGState 4 1) 7
       = { hist := fun j => if j.val = (⟨fun _ => 0, 0, 1, []⟩ : NGState 4 1).head then 7
             else (⟨fun _ => 0, 0, 1, []⟩ : NGState 4 1).hist j,
           head := ((⟨fun _ => 0, 0, 1, []⟩ : NGState 4 1).head + 1) % 1,
           count := (⟨fun _ => 0, 0, 1, []⟩ : NGState 4 1).count,
           accs := (⟨fun _ => 0, 0, 1, []⟩ : NGState 4 1).accs
             ++ [specNGramAggregate 4 1 99
              (fun j => if j.val = (⟨fun _ => 0, 0, 1, []⟩ : NGState 4 1).head then 7
                else (⟨fun _ => 0, 0, 1, []⟩ : NGState 4 1).hist j)
              (((⟨fun _ => 0, 0, 1, []⟩ : NGState 4 1).head + 1) % 1)] }) :=
  ⟨by decide, C5_ngram_update 4 1 99 [1, 2, 3] ⟨fun _ => 0, 0, 1, []⟩ 7 (by decide)⟩

set_option maxRecDepth 4000 in
/-- C1 (counterexample): the claim says every invalid input (including a CRC
mismatch) leaves the destination empty.  On a stream with a valid header and a
one-entry body but a corrupted trailer CRC, `LoadPrototype` returns failure —
yet the destination holds the entry it already learned (`Size() = 1`), because
the CRC is only verified after the entries are loaded. -/
theorem C1_crc_mismatch_counterexample :
    (loadPrototype 1 1 (headerBytes 1 1 1 1 ++ bodyBytesProto [((7 : Nat), zeroHV 1)]
      ++ (hsx1Bytes ++ enc 4 0)) []).1 = false ∧
    ((loadPrototype 1 1 (headerBytes 1 1 1 1 ++ bodyBytesProto [((7 : Nat), zeroHV 1)]
      ++ (hsx1Bytes ++ enc 4 0)) []).2).length = 1 := by
  refine ⟨by decide, by decide⟩

/-- C1 (amended): on every invalid input `LoadPrototype`/`LoadCluster` return
failure; the destination store is left in its pre-load (empty) state for every
failure detected by the header checks — short header read, bad magic, wrong
kind, mismatched dim or capacity, size > capacity.  (On a CRC mismatch, and on
body short-reads after entries have been stored, the load still fails but the
destination retains the entries already loaded.) -/
theorem C1_header_failures_preserve_empty (D C : Nat) (s : List Nat) :
    ((s.length < 32 ∨ (s.take 32).take 5 ≠ magicBytes ∨ (s.take 32).getD 5 0 ≠ 1
        ∨ dec (((s.take 32).drop 8).take 8) ≠ D ∨ dec (((s.take 32).drop 16).take 8) ≠ C
        ∨ dec (((s.take 32).drop 24).take 8) > C) →
      loadPrototype D C s [] = (false, [])) ∧
    ((s.length < 32 ∨ (s.take 32).take 5 ≠ magicBytes ∨ (s.take 32).getD 5 0 ≠ 2
        ∨ dec (((s.take 32).drop 8).take 8) ≠ D ∨ dec (((s.take 32).drop 16).take 8) ≠ C
        ∨ dec (((s.take 32).drop 24).take 8) > C) →
      loadCluster D C s (clusterEmpty D) = (false, clusterEmpty D)) := by
  constructor
  · intro hbad
    unfold loadPrototype
    rw [if_neg (by simp)]
    unfold readBytes
    by_cases hlen : 32 ≤ s.length
    · rw [if_pos hlen]
      dsimp only
      by_cases h1 : (s.take 32).take 5 ≠ magicBytes
      · rw [if_pos h1]
      · rw [if_neg h1]
        by_cases h2 : (s.take 32).getD 5 0 ≠ 1
        · rw [if_pos h2]
        · rw [if_neg h2]
          by_cases h3 : dec (((s.take 32).drop 8).take 8) ≠ D
              ∨ dec (((s.take 32).drop 16).take 8) ≠ C
          · rw [if_pos h3]
          · rw [if_neg h3]
            by_cases h4 : dec (((s.take 32).drop 24).take 8) > C
            · rw [if_pos h4]
            · exfalso
              push_neg at h1 h2 h3
              rcases hbad with h | h | h | h | h | h
              · omega
              · exact h h1
              · exact h h2
              · exact h h3.1
              · exact h h3.2
              · omega
    · rw [if_neg hlen]
  · intro hbad
    unfold loadCluster
    rw [if_neg (by simp [clusterEmpty])]
    unfold readBytes
    by_cases hlen : 32 ≤ s.length
    · rw [if_pos hlen]
      dsimp only
      by_cases h1 : (s.take 32).take 5 ≠ magicBytes
      · rw [if_pos h1]
      · rw [if_neg h1]
        by_cases h2 : (s.take 32).getD 5 0 ≠ 2
        · rw [if_pos h2]
        · rw [if_neg h2]
          by_cases h3 : dec (((s.take 32).drop 8).take 8) ≠ D
              ∨ dec (((s.take 32).drop 16).take 8) ≠ C
          · rw [if_pos h3]
          · rw [if_neg h3]
            by_cases h4 : dec (((s.take 32).drop 24).take 8) > C
            · rw [if_pos h4]
            · exfalso
              push_neg at h1 h2 h3
              rcases hbad with h | h | h | h | h | h
              · omega
              · exact h h1
              · exact h h2
              · exact h h3.1
              · exact h h3.2
              · omega
    · rw [if_neg hlen]

theorem C1_header_failures_witness :
    loadPrototype 1 1 [] [] = (false, []) ∧
    loadCluster 1 1 [] (clusterEmpty 1) = (false, clusterEmpty 1) :=
  ⟨(C1_header_failures_preserve_empty 1 1 []).1 (Or.inl (by decide)),
   (C1_header_failures_preserve_empty 1 1 []).2 (Or.inl (by decide))⟩

set_option maxRecDepth 4000 in
/-- C3 (counterexample): the claim includes stores of size 0, but the
round trip fails for an empty `ClusterMemory`: `LoadCluster` sizes its
`std::vector`s to 0, their `data()` pointers are null, and `LoadRaw` rejects
null inputs, so the load of a freshly saved empty cluster returns failure. -/
theorem C3_empty_cluster_counterexample :
    (loadCluster 1 1 (saveCluster 1 1 (clusterEmpty 1)) (clusterEmpty 1)).1 = false := by
  decide

/-- C3 (amended): Save-then-Load into an empty store of the same Dim/Capacity
succeeds and reproduces the exact store contents — for every `PrototypeMemory`
(including size 0) and for every `ClusterMemory` with size ≥ 1 — and a second
save of the loaded store is byte-identical to the first.  (The empty-cluster
case fails; see the counterexample.) -/
theorem C3_serialization_roundtrip (D C : Nat) (entries : List (Nat × HV D))
    (stc : ClusterSt D)
    (hD : D < 2 ^ 64) (hC : C < 2 ^ 64)
    (hlen : entries.length ≤ C) (hlab : ∀ e ∈ entries, e.1 < 2 ^ 64)
    (hn : stc.labels.length ≤ C) (hne : stc.labels.length ≠ 0)
    (hclab : ∀ x ∈ stc.labels, x < 2 ^ 64)
    (hcnt : stc.counts.length = stc.labels.length)
    (hcntr : ∀ z ∈ stc.counts, -(2 ^ 31) ≤ z ∧ z < 2 ^ 31)
    (hsums : stc.sums.length = stc.labels.length)
    (hrow : ∀ r ∈ stc.sums, r.length = D)
    (hsr : ∀ r ∈ stc.sums, ∀ z ∈ r, -(2 ^ 31) ≤ z ∧ z < 2 ^ 31) :
    loadPrototype D C (savePrototype D C entries) [] = (true, entries) ∧
    savePrototype D C (loadPrototype D C (savePrototype D C entries) []).2
      = savePrototype D C entries ∧
    loadCluster D C (saveCluster D C stc) (clusterEmpty D) = (true, stc) ∧
    saveCluster D C (loadCluster D C (saveCluster D C stc) (clusterEmpty D)).2
      = saveCluster D C stc := by
  have h1 := loadPrototype_savePrototype D C entries hD hC hlen hlab
  have h2 := loadCluster_saveCluster D C stc hD hC hn hne hclab hcnt hcntr hsums hrow hsr
  refine ⟨h1, ?_, h2, ?_⟩
  · rw [h1]
  · rw [h2]

set_option maxRecDepth 8000 in
theorem C3_serialization_roundtrip_witness :
    (1 < 2 ^ 64 ∧ ([] : List (Nat × HV 1)).length ≤ 1 ∧
      (⟨[3], [1], [[0]]⟩ : ClusterSt 1).labels.length ≤ 1 ∧
      (⟨[3], [1], [[0]]⟩ : ClusterSt 1).labels.length ≠ 0) ∧
    (loadPrototype 1 1 (savePrototype 1 1 ([] : List (Nat × HV 1))) [] = (true, []) ∧
     savePrototype 1 1 (loadPrototype 1 1 (savePrototype 1 1 ([] : List (Nat × HV 1))) []).2
       = savePrototype 1 1 ([] : List (Nat × HV 1)) ∧
     loadCluster 1 1 (saveCluster 1 1 (⟨[3], [1], [[0]]⟩ : ClusterSt 1)) (clusterEmpty 1)
       = (true, (⟨[3], [1], [[0]]⟩ : ClusterSt 1)) ∧
     saveCluster 1 1 (loadCluster 1 1 (saveCluster 1 1 (⟨[3], [1], [[0]]⟩ : ClusterSt 1))
         (clusterEmpty 1)).2
       = saveCluster 1 1 (⟨[3], [1], [[0]]⟩ : ClusterSt 1)) :=
  ⟨⟨by norm_num, by decide, by decide, by decide⟩,
   C3_serialization_roundtrip 1 1 [] ⟨[3], [1], [[0]]⟩ (by norm_num) (by norm_num)
     (by decide) (by intro e he; exact absurd he (List.not_mem_nil e)) (by decide) (by decide)
     (by
       intro x hx
       have : x = 3 := by simpa using hx
       omega)
     (by decide)
     (by
       intro z hz
       have : z = 1 := by simpa using hz
       constructor <;> omega)
     (by decide)
     (by
       intro r hr
       have : r = [0] := by simpa using hr
       rw [this]
       rfl)
     (by
       intro r hr z hz
       have hr0 : r = [0] := by simpa using hr
       rw [hr0] at hz
       have : z = 0 := by simpa using hz
       constructor <;> omega)⟩
